import Mathlib

/-!
Verification of the `template` library core (view collections, context
merging, middleware dispatch, layout application, render orchestration).

The JavaScript source is shallowly embedded: JS objects become association
lists (`JMap`), `extend-shallow` becomes `JMap.extend`, mutation becomes
explicit state passing, and thrown exceptions become `Except`.  Two
implementations live in the repository: the main `index.js` (embedded in
namespace `T`) and the rewrite in `src/unnamed/part_007` (namespace `V`).
External collaborators (the `layouts` library, `en-route` router and the
`engine-cache` wrapper) are modelled at their interface boundary as the
specification describes them; each such model is marked in its doc comment.
-/

/-- A JS object with values of type `α`, keyed by strings.  Lookup returns
the first binding; `set` overwrites in place or appends, so objects built
by `set` keep JS insertion order for iteration. -/
def JMap (α : Type) : Type := List (String × α)

namespace JMap

def get {α : Type} : JMap α → String → Option α
  | [], _ => none
  | (k', v') :: t, k => if k' = k then some v' else get t k

def set {α : Type} : JMap α → String → α → JMap α
  | [], k, v => [(k, v)]
  | (k', v') :: t, k, v => if k' = k then (k, v) :: t else (k', v') :: set t k v

/-- `extend-shallow`: copy each own key of `s` onto `t`, in order. -/
def extend {α : Type} (t s : JMap α) : JMap α :=
  s.foldl (fun a kv => a.set kv.1 kv.2) t

/-- Copy a key only when absent (used by `mergeType`, where the
first-registered collection wins). -/
def setIfAbsent {α : Type} (m : JMap α) (k : String) (v : α) : JMap α :=
  match m.get k with
  | some _ => m
  | none => m.set k v

def getD {α : Type} (m : JMap α) (k : String) (d : α) : α :=
  (m.get k).getD d

instance {α : Type} : Membership (String × α) (JMap α) :=
  inferInstanceAs (Membership (String × α) (List (String × α)))

/-- The keys of a JS object are distinct (every `JMap` that models a real
JS object satisfies this). -/
def WF {α : Type} (m : JMap α) : Prop := (m.map Prod.fst).Nodup

instance {α : Type} (m : JMap α) : Decidable (WF m) := by
  unfold WF; infer_instance

end JMap

/-- JS values appearing in contexts, options and front-matter data. -/
inductive Val where
  | str : String → Val
  | bool : Bool → Val
  | strList : List String → Val
  | pairs : List (String × String) → Val
  | obj : List (String × Val) → Val

/-- JS truthiness for modelled values. -/
def Val.truthy : Val → Bool
  | .str s => s ≠ ""
  | .bool b => b
  | .strList _ => true
  | .pairs _ => true
  | .obj _ => true

/-- `a || b` on possibly-absent JS values. -/
def jsOr (a b : Option Val) : Option Val :=
  match a with
  | some v => if v.truthy then some v else b
  | none => b

/-- Truthiness of an optional value (`undefined` is falsy). -/
def optTruthy (a : Option Val) : Bool :=
  match a with
  | some v => v.truthy
  | none => false

/-- Read a key expected to hold an object, defaulting to `{}`. -/
def getObjD (a : Option Val) : JMap Val :=
  match a with
  | some (.obj o) => o
  | _ => []

/-- An Error object (`new Error(message)` with the fields the source sets). -/
structure JErr where
  method : String := ""
  msg : String := ""
  path : String := ""
  deriving DecidableEq, Repr

/-- Replace every occurrence of `pat` in the character list (kernel-
computable stand-in for `String.replace`); the fuel is the input length. -/
def replaceFuel (pat rep : List Char) : Nat → List Char → List Char
  | 0, l => l
  | _ + 1, [] => []
  | fuel + 1, c :: rest =>
    if pat.isPrefixOf (c :: rest) then
      rep ++ replaceFuel pat rep fuel ((c :: rest).drop pat.length)
    else c :: replaceFuel pat rep fuel rest

/-- `String.replace` (all occurrences; an empty pattern returns the input
unchanged, as in core). -/
def strReplace (s pat rep : String) : String :=
  if pat = "" then s
  else ⟨replaceFuel pat.data rep.data s.data.length s.data⟩

/-- An entry of the layout stack handed to the external `layouts` library:
its content and its own declared parent layout. -/
structure LayoutEntry where
  content : String
  next : Option Val

/-- Result of the external `layouts` call: the wrapped string and the trace
of `(layout name, content after that wrap)` steps. -/
structure LayoutsRes where
  result : String
  trace : List (String × String)
  deriving DecidableEq, Repr

/-- Modelled from the spec: the chain loop of the external `layouts`
library (§3 "Layout Stack", §4.4 step 4): while the current name resolves
in the stack, substitute the accumulated string for the body marker in
that layout's content and move to the layout's own parent; an unset or
unresolved name stops the chain (not an error).  Fuel bounds the loop. -/
def layoutsChain (marker : String) (stack : JMap LayoutEntry) :
    Nat → String → Option String → List (String × String) → LayoutsRes
  | 0, str, _, acc => ⟨str, acc⟩
  | _ + 1, str, none, acc => ⟨str, acc⟩
  | fuel + 1, str, some name, acc =>
    match stack.get name with
    | none => ⟨str, acc⟩
    | some lay =>
      let str' := strReplace lay.content marker str
      let nxt : Option String :=
        match jsOr lay.next none with
        | some (.str s) => if s = "" then none else some s
        | _ => none
      layoutsChain marker stack fuel str' nxt (acc ++ [(name, str')])

/-- Modelled from the spec: the external `layouts(str, name, stack, opts)`
entry point.  Delimiters and the body-marker tag come from the options
(defaults `{% %}` and `body`, §6); a falsy starting name falls back to
`opts.defaultLayout` (§4.4 step 2, and `applyLayout` disabling it for
partials). -/
def layoutsLib (str : String) (name : Option Val) (stack : JMap LayoutEntry)
    (opts : JMap Val) : LayoutsRes :=
  let delims : String × String :=
    match opts.get "layoutDelims" with
    | some (.strList [o, c]) => (o, c)
    | _ => ("\x7b%", "%\x7d")
  let tag : String :=
    match opts.get "layoutTag" with
    | some (.str t) => t
    | _ => "body"
  let marker := delims.1 ++ " " ++ tag ++ " " ++ delims.2
  let start : Option String :=
    match jsOr name (opts.get "defaultLayout") with
    | some (.str s) => if s = "" then none else some s
    | _ => none
  layoutsChain marker stack (stack.length + 1) str start []

namespace T

/-- An engine object as seen through the `engine-cache` boundary (§6):
optional `compile` / `render` / `renderSync` capabilities checked with
`hasOwn` at call time, plus the options attached to the engine.  A
function's `.error` result models `cb(err)` / a thrown error. -/
structure EngineObj where
  name : String := ""
  opts : JMap Val := []
  compileFn : Option (String → JMap Val → Except JErr String) := none
  renderFn : Option (String → JMap Val → Except JErr String) := none
  renderSyncFn : Option (String → JMap Val → Except JErr String) := none

/-- A template (document) object of `index.js`: `layoutF`, `engineF` and
`fn` embed the `layout`, `engine` and `fn` properties. `fn`'s `.error`
models a compile result that is an Error object (see `compileBase`). -/
structure Tmpl where
  path : String := ""
  content : String := ""
  data : JMap Val := []
  locals : JMap Val := []
  options : JMap Val := []
  layoutF : Option Val := none
  engineF : Option String := none
  fn : Option (Except JErr String) := none

/-- Modelled from the spec: a middleware registration of the external
`en-route` router (§4.3): a hook (`none` = `all`), a path predicate, and a
handler whose first result component models `next(err)`. -/
structure RegT where
  hook : Option String := none
  pathMatch : String → Bool
  handler : Tmpl → Option JErr × Tmpl

/-- The `Template` instance state of `index.js` that the embedded methods
touch: the option flags set by `defaultOptions`, the error list, engines,
view collections with their type (role) registries, and `cache`. -/
structure App where
  silent : Bool := true
  errorsList : List JErr := []
  engines : JMap EngineObj := []
  viewEngine : String := "*"
  debugEngine : Bool := false
  preferLocals : Bool := false
  mergePartialsOpt : Bool := true
  layoutExt : Option String := none
  cacheData : JMap Val := []
  cacheCtx : JMap Val := []
  views : JMap (JMap Tmpl) := []
  typeRenderable : List String := []
  typeLayout : List String := []
  typePartials : List String := []
  inflections : JMap String := []
  renameKey : String → String := fun s => s
  router : Option (List RegT) := none

def mkErr (methodName msg fp : String) : JErr :=
  { method := methodName, msg := msg, path := fp }

/-- `Template.prototype.error`: builds an Error and either pushes it onto
`errorsList` (when `silent` is enabled) or throws it. -/
def errorM (app : App) (methodName msg : String) (fp : String := "") :
    Except JErr App :=
  let err := mkErr methodName msg fp
  if app.silent then .ok { app with errorsList := app.errorsList ++ [err] }
  else .error err

/-- Run a middleware handler sequence; `next(err)` aborts the chain (the
`handleError` callback only logs, so the error is swallowed). -/
def runSeqT : List (Tmpl → Option JErr × Tmpl) → Tmpl → Tmpl
  | [], t => t
  | f :: fs, t =>
    match f t with
    | (some _, t') => t'
    | (none, t') => runSeqT fs t'

/-- The handlers whose hook is `all` or the dispatched method and whose
pattern matches the path, in registration order. -/
def matchingHandlers (regs : List RegT) (method : String) (p : String) :
    List (Tmpl → Option JErr × Tmpl) :=
  (regs.filter fun r => (r.hook.isNone || r.hook == some method) && r.pathMatch p).map
    (fun r => r.handler)

/-- `Template.prototype.handle`: records the method on the options and
dispatches through the router; with no router it is a no-op (`done()`). -/
def handleT (app : App) (method : String) (t : Tmpl) : Tmpl :=
  let t := { t with options := t.options.set "method" (.str method) }
  match app.router with
  | none => t
  | some regs => runSeqT (matchingHandlers regs method t.path) t

/-- `template-utils`' `formatExt` (external): ensure a leading dot. -/
def formatExt (e : String) : String :=
  if e.data.head? = some '.' then e else "." ++ e

/-- `Template.prototype.registerEngine` (via `engine-cache.setEngine`). -/
def registerEngine (app : App) (ext : String) (e : EngineObj) : App :=
  { app with engines := app.engines.set (formatExt ext) e }

/-- The wildcard engine registered by `defaultOptions` under `.*`: the
source's `noop(str, opts, cb)` calls `cb(null, str)`, so `render` returns
the input unchanged.  `compile` is Modelled from the spec: §6's adapter
interface as produced by the external `engine-cache` wrapper, returning
the input as the compiled handle. -/
def noopEngine : EngineObj :=
  { name := ".*"
    compileFn := some fun s _ => .ok s
    renderFn := some fun s _ => .ok s }

/-- `Template.prototype.getEngine`: a missing/falsy extension falls back to
the `view engine` option (`*`), then the cache is consulted under the
dot-formatted extension. -/
def getEngine (app : App) (ext : Option String) : Option EngineObj :=
  let e := match ext with
    | some s => if s = "" then app.viewEngine else s
    | none => app.viewEngine
  app.engines.get (formatExt e)

/-- `this.type[type]` (only the three role keys exist). -/
def typeList (app : App) : String → List String
  | "renderable" => app.typeRenderable
  | "layout" => app.typeLayout
  | "partial" => app.typePartials
  | _ => []

/-- `Template.prototype.getType`: the collections of a role, in
registration order (optionally restricted to given subtypes). -/
def getType (app : App) (ty : String) (subtypes : Option (List String)) :
    List (String × JMap Tmpl) :=
  let keys := match subtypes with
    | some s => s
    | none => typeList app ty
  keys.map fun p => (p, (app.views.get p).getD [])

/-- The scan inside `Template.prototype.find`: first collection owning the
key wins. -/
def findFold : List (String × JMap Tmpl) → String → Option Tmpl
  | [], _ => none
  | (_, views) :: rest, name =>
    match views.get name with
    | some v => some v
    | none => findFold rest name

/-- `Template.prototype.find` with a possibly-missing `name`: a non-string
name raises through `error` and the subsequent loop matches nothing
(`hasOwnProperty(undefined)` is false). -/
def findT (app : App) (ty : String) (name : Option String)
    (subtypes : Option (List String)) : Except JErr (App × Option Tmpl) :=
  match name with
  | some n => .ok (app, findFold (getType app ty subtypes) n)
  | none =>
    match errorM app "find" "expects `name` to be a string." with
    | .ok app' => .ok (app', none)
    | .error e => .error e

/-- `Template.prototype.findRenderable` for a present string key. -/
def findRenderable (app : App) (key : String) : Option Tmpl :=
  findFold (getType app "renderable" none) key

/-- `Template.prototype.getViews`: plural lookup, falling back through the
singular inflection. -/
def getViews (app : App) (ty : String) : Option (JMap Tmpl) :=
  match app.views.get ty with
  | some v => some v
  | none =>
    match app.inflections.get ty with
    | some pl => app.views.get pl
    | none => none

/-- `Template.prototype.getView`: a falsy collection name returns the
result of `error` (which appends in silent mode); otherwise the collection
is consulted under the name and then under `renameKey(name)`, raising
through `error` when neither is present. -/
def getView (app : App) (collection : Option String) (name : String) :
    Except JErr (App × Option Tmpl) :=
  if (match collection with | none => true | some c => c = "") then
    match errorM app "view" "expects a collection name." with
    | .ok app' => .ok (app', none)
    | .error e => .error e
  else
    match getViews app (collection.getD "") with
    | none => .ok (app, none)
    | some views =>
      match views.get name with
      | some v => .ok (app, some v)
      | none =>
        match views.get (app.renameKey name) with
        | some v => .ok (app, some v)
        | none =>
          match errorM app "view"
              ("cannot find: " ++ app.renameKey name) with
          | .ok app' => .ok (app', none)
          | .error e => .error e

/-- `Template.prototype.mergeType`: merge the role's collections into one
lookup set; the first-registered collection wins on key collisions. -/
def mergeType (app : App) (ty : String) (subtypes : Option (List String)) :
    JMap Tmpl :=
  (getType app ty subtypes).foldl
    (fun res pc => pc.2.foldl (fun r kv => r.setIfAbsent kv.1 kv.2) res) []

/-- `Template.prototype.mergeTypeContext`:
`cache._context[type][key] = extend({}, locals, data)`. -/
def mergeTypeContext (app : App) (ty key : String) (locals data : JMap Val) :
    App :=
  let tyObj := getObjD (app.cacheCtx.get ty)
  let entry : Val := .obj (tyObj.set key (.obj (JMap.extend (JMap.extend [] locals) data)))
  { app with cacheCtx := app.cacheCtx.set ty entry }

/-- `Template.prototype.mergeLayouts` with the `mergeLayouts` option unset
(its default): merge all layout collections and record each layout's
locals/data in `cache._context.layouts`. -/
def mergeLayouts (app : App) : JMap Tmpl × App :=
  let stack := mergeType app "layout" none
  (stack, stack.foldl
    (fun a kv => mergeTypeContext a "layouts" kv.1 kv.2.locals kv.2.data) app)

/-- JS string coercion, for the dead-by-default `layoutExt` append. -/
def jsToStr : Option Val → String
  | some (.str s) => s
  | some (.bool b) => if b then "true" else "false"
  | some _ => "[object]"
  | none => "undefined"

/-- The parent-layout entry the external `layouts` library sees for a
stored layout template (same precedence as `applyLayout`'s own lookup,
minus the call context). -/
def tmplLayoutEntry (t : Tmpl) : LayoutEntry :=
  { content := t.content
    next := jsOr t.layoutF (jsOr (t.data.get "layout")
      (jsOr (t.options.get "layout") (t.locals.get "layout"))) }

def toLayoutStack (m : JMap Tmpl) : JMap LayoutEntry :=
  m.map fun kv => (kv.1, tmplLayoutEntry kv.2)

/-- Everything `Template.prototype.applyLayout` produces: the returned
string, the mutated template and locals objects, the app (layout-type
contexts recorded), and a ghost flag telling whether layout-chain
resolution executed (false when the `layoutApplied` guard short-circuits). -/
structure ALRes where
  result : String
  tmpl : Tmpl
  ctx : JMap Val
  app : App
  ran : Bool

/-- `Template.prototype.applyLayout`.  Note the source marks
`layoutApplied` and returns the wrapped string WITHOUT storing it into
`template.content`; callers assign it. -/
def applyLayoutT (app : App) (t : Tmpl) (ctx : JMap Val) : ALRes :=
  if optTruthy (t.options.get "layoutApplied") then
    ⟨t.content, t, ctx, app, false⟩
  else
    let t := { t with options := t.options.set "layoutApplied" (.bool true) }
    let ctx := if optTruthy (t.options.get "isPartial")
      then ctx.set "defaultLayout" (.bool false) else ctx
    let layoutV := jsOr t.layoutF (jsOr (t.data.get "layout")
      (jsOr (ctx.get "layout")
        (jsOr (t.options.get "layout") (t.locals.get "layout"))))
    let layoutV := match app.layoutExt with
      | some e => if e = "" then layoutV
          else some (.str (jsToStr layoutV ++ formatExt e))
      | none => layoutV
    let (stack, app) := mergeLayouts app
    let res := layoutsLib t.content layoutV (toLayoutStack stack) ctx
    let t := { t with options := t.options.set "layoutStack" (.pairs res.trace) }
    ⟨res.result, t, ctx, app, true⟩

/-- `acc[ns] = acc[ns] || {}; acc[ns][key] = v`. -/
def setNested (m : JMap Val) (ns key : String) (v : Val) : JMap Val :=
  m.set ns (.obj ((getObjD (m.get ns)).set key v))

/-- The wrap part of one `mergePartials` iteration: record the partial's
locals/data context, pick layout delimiters into that cached context
object (an in-place mutation, hence written back), and wrap the partial's
content with its layout; returns the updated view (wrapped content stored)
and app. -/
def mpWrap (st : JMap Val × App) (_plural : String) (kv : String × Tmpl) :
    Tmpl × App :=
  let opts := st.1
  let app := st.2
  let key := kv.1
  let value := kv.2
  let app := mergeTypeContext app "partials" key value.locals value.data
  let layoutOpts := getObjD ((getObjD (app.cacheCtx.get "partials")).get key)
  -- pick-from: the first object owning `layoutDelims` provides the value
  let delim := match layoutOpts.get "layoutDelims" with
    | some v => some v
    | none => opts.get "layoutDelims"
  let layoutOpts := match delim with
    | some d => layoutOpts.set "layoutDelims" d
    | none => layoutOpts
  let r := applyLayoutT app value layoutOpts
  -- the cached context object aliases `layoutOpts`, so the mutations above
  -- and those made inside `applyLayout` are visible through the cache
  let pObj := (getObjD (r.app.cacheCtx.get "partials")).set key (.obj r.ctx)
  let app := { r.app with cacheCtx := r.app.cacheCtx.set "partials" (.obj pObj) }
  ({ r.tmpl with content := r.result }, app)

/-- One iteration of `mergePartials`' inner loop over a partial collection:
wrap the view (`mpWrap`), store it back into its collection, and expose
its content on the options under the flattened or per-collection
namespace. -/
def mpStep (merge : Bool) (plural : String) (st : JMap Val × App)
    (kv : String × Tmpl) : JMap Val × App :=
  let value := (mpWrap st plural kv).1
  let app := (mpWrap st plural kv).2
  let coll := ((app.views.get plural).getD []).set kv.1 value
  let app := { app with views := app.views.set plural coll }
  let opts := if merge then setNested st.1 "partials" kv.1 (.str value.content)
    else setNested st.1 plural kv.1 (.str value.content)
  (opts, app)

/-- The per-collection loop of `mergePartials`: the collection is read from
the current state and each of its views is processed by `mpStep`. -/
def mpColl (merge : Bool) (st : JMap Val × App) (plural : String) :
    JMap Val × App :=
  ((st.2.views.get plural).getD []).foldl (mpStep merge plural) st

/-- `Template.prototype.mergePartials` with the `mergePartials` option a
boolean (the function-valued override is not modelled): walks every
partial-role collection, wraps each partial with its layout, exposes the
content on `context.options` (flattened under `partials` when the option
is enabled, per-collection otherwise) and returns the context object. -/
def mergePartialsT (app : App) (context : JMap Val) : JMap Val × App :=
  let merge := app.mergePartialsOpt
  let opts := getObjD (context.get "options")
  let opts := if merge
    then opts.set "partials" (.obj (getObjD (context.get "partials")))
    else opts
  let stf := app.typePartials.foldl (mpColl merge) (opts, app)
  let newOpts : Val := .obj (JMap.extend (getObjD (context.get "options")) stf.1)
  (context.set "options" newOpts, stf.2)

/-- `Template.prototype.mergeContext` with the `mergeContext` option unset
(its default): global data, then the template's options, then its
locals/data in the order selected by `preferLocals`, then the context
returned by `mergePartials` (the call locals), then the cached partial
contexts. -/
def mergeContextT (app : App) (t : Tmpl) (locals : JMap Val) :
    JMap Val × App :=
  let context : JMap Val := []
  let context := context.extend app.cacheData
  let context := context.extend t.options
  let context := if app.preferLocals
    then (context.extend t.data).extend t.locals
    else (context.extend t.locals).extend t.data
  let (mp, app) := mergePartialsT app locals
  let context := context.extend mp
  let context := context.extend (getObjD (app.cacheCtx.get "partials"))
  (context, app)

/-- `Template.prototype.compileBase`.  A thrown compile error is caught and
returned as a value (the `.error` of the inner `Except`); a missing
`.compile` raises through `error` (throwing only when `silent` is off) and
then the call of the missing method yields a caught TypeError. -/
def compileBase (app : App) (e : EngineObj) (content : String)
    (options : JMap Val) : Except JErr (App × Except JErr String) :=
  match e.compileFn with
  | some f => .ok (app, f content options)
  | none =>
    match errorM app "compileBase"
        ("`.compile` method not found on: " ++ e.name) with
    | .ok app' =>
      .ok (app', .error (mkErr "TypeError" "engine.compile is not a function" ""))
    | .error err => .error err

def del {α : Type} (m : JMap α) (k : String) : JMap α :=
  m.filter fun kv => kv.1 ≠ k

/-- `Template.prototype.compileTemplate`: preCompile middleware, layout
application, postCompile middleware, then the engine's compile.
`bindHelpers` only installs helper functions (outside the modelled core)
and is omitted. -/
def compileTemplate (app : App) (t : Tmpl) (options : JMap Val)
    (isAsync : Bool) : Except JErr (App × Tmpl × Except JErr String) :=
  let opts := options
  let context := getObjD (opts.get "context")
  let opts := (del opts "context").set "async" (.bool isAsync)
  let t := handleT app "preCompile" t
  let r := applyLayoutT app t (JMap.extend (JMap.extend [] context) opts)
  let app := r.app
  let t := { r.tmpl with content := r.result }
  let t := handleT app "postCompile" t
  let content := t.content
  let opts := opts.set "debugEngine" (.bool app.debugEngine)
  match getEngine app t.engineF with
  | none => .error (mkErr "TypeError" "engine is undefined" "")
  | some e =>
    match compileBase app e content opts with
    | .ok (app, fn) => .ok (app, t, fn)
    | .error err => .error err

/-- `Template.prototype.renderSync`: a missing `.renderSync` raises through
`error`; a thrown engine error is caught and RETURNED as a value (the
inner `.error`), never rethrown. -/
def renderSyncT (app : App) (e : EngineObj) (content : Except JErr String)
    (options : JMap Val) : Except JErr (App × Except JErr String) :=
  match e.renderSyncFn with
  | some f =>
    .ok (app, match content with
      | .ok s => f s options
      | .error err => .error err)
  | none =>
    match errorM app "renderSync"
        ".renderSync method not found on engine" with
    | .ok app' =>
      .ok (app',
        .error (mkErr "TypeError" "engine.renderSync is not a function" ""))
    | .error err => .error err

/-- `Template.prototype.renderAsync`: callback result; thrown engine errors
are caught and passed to the callback. -/
def renderAsyncT (app : App) (e : EngineObj) (content : Except JErr String)
    (options : JMap Val) : Except JErr (App × Except JErr String) :=
  match e.renderFn with
  | some f =>
    .ok (app, match content with
      | .ok s => f s options
      | .error err => .error err)
  | none =>
    match errorM app "renderAsync" "no .render method found on engine" with
    | .ok app' =>
      .ok (app',
        .error (mkErr "TypeError" "engine.render is not a function" ""))
    | .error err => .error err

/-- The two shapes `renderBase` can produce, tagged by the path taken. -/
inductive RBOut where
  | syncO : Except JErr (App × Except JErr String) → RBOut
  | asyncO : Except JErr (App × Except JErr String) → RBOut

/-- `Template.prototype.renderBase`: without a callback the synchronous
path (`renderSync`) is taken, with one the asynchronous path. -/
def renderBase (app : App) (e : EngineObj) (content : Except JErr String)
    (options : JMap Val) (hasCb : Bool) : RBOut :=
  if hasCb then .asyncO (renderAsyncT app e content options)
  else .syncO (renderSyncT app e content options)

/-- `Template.prototype.renderTemplate`, callback form (`isAsync`): the
preRender hook, context merge, compile-on-demand, the engine's render, and
the postRender hook; the callback receives the postRender-processed
content.  (The `typeof content === 'string'` compatibility block is dead
code: `var` hoisting makes `content` undefined at that point.) -/
def renderTemplateAsync (app : App) (t : Tmpl) (locals : JMap Val) :
    Except JErr (App × Tmpl × Except JErr String) :=
  let t := if t.path = "" then { t with path := "." } else t
  let t := handleT app "preRender" t
  let (locals, app) := mergeContextT app t locals
  let opts := JMap.extend [] (getObjD (locals.get "options"))
  match getEngine app t.engineF with
  | none => .error (mkErr "TypeError" "engine is undefined" "")
  | some e =>
    let step : Except JErr (App × Tmpl) :=
      match t.fn with
      | some _ => .ok (app, t)
      | none =>
        let ctxV := (jsOr (opts.get "context") (some (.obj locals))).getD
          (.obj locals)
        let opts := opts.set "context" ctxV
        let opts := match e.opts.get "delims" with
          | some d => opts.set "delims" d
          | none => opts
        match compileTemplate app t opts true with
        | .ok (app, t, fn) => .ok (app, { t with fn := some fn })
        | .error err => .error err
    match step with
    | .error err => .error err
    | .ok (app, t) =>
      match t.fn with
      | none => .error (mkErr "unreachable" "fn is set on both branches" "")
      | some content =>
        match renderAsyncT app e content locals with
        | .error err => .error err
        | .ok (app, .error err) => .ok (app, t, .error err)
        | .ok (app, .ok res) =>
          let t := { t with content := res }
          let t := handleT app "postRender" t
          .ok (app, t, .ok t.content)

/-- `Template.prototype.renderString`, callback form. -/
def renderStringAsync (app : App) (s : String) (locals : JMap Val) :
    Except JErr (App × Tmpl × Except JErr String) :=
  let locals := JMap.extend ([("options", Val.obj [])] : JMap Val) locals
  let options := getObjD (locals.get "options")
  renderTemplateAsync app { content := s, locals := locals, options := options }
    locals

/-- The argument forms `render` dispatches on (the `content == null` guard
is outside the typed model). -/
inductive RIn where
  | tmplIn : Tmpl → RIn
  | strIn : String → RIn

/-- `Template.prototype.render`, callback form: an object renders directly;
a string is resolved against the renderable collections first and falls
back to inline-string rendering. -/
def renderT (app : App) (input : RIn) (locals : JMap Val) :
    Except JErr (App × Tmpl × Except JErr String) :=
  match input with
  | .tmplIn t => renderTemplateAsync app t locals
  | .strIn s =>
    match findRenderable app s with
    | some t => renderTemplateAsync app t locals
    | none => renderStringAsync app s locals

/-- The instance state `defaultOptions` establishes at construction:
`silent` enabled, the `*` view engine, the wildcard noop engine under
`.*`, `mergePartials` enabled, `preferLocals` disabled.  The default
collections created by the (absent) transform modules are not present;
the claims' configurations supply their own collections. -/
def defaultApp : App :=
  { silent := true
    viewEngine := "*"
    engines := JMap.set [] (formatExt ".*") noopEngine
    mergePartialsOpt := true
    preferLocals := false }

end T

namespace V

/-- A view of the rewrite (`src/unnamed/part_007`); the `options.handled`
array lives in its own field, `layoutF` embeds the decorated `view.layout`
property (the `lib/views` module is absent from the sources). -/
structure ViewV where
  path : String := ""
  content : String := ""
  data : JMap Val := []
  locals : JMap Val := []
  options : JMap Val := []
  handled : List String := []
  layoutF : Option Val := none

/-- Modelled from the spec: a middleware registration of the external
`en-route` router (§4.3): hook (`none` = `all`), path predicate, handler;
the handler's first result component models `next(err)`. -/
structure RegV where
  hook : Option String := none
  pathMatch : String → Bool
  handler : ViewV → Option JErr × ViewV

/-- The rewrite's `Template` state used by the embedded methods. -/
structure AppV where
  options : JMap Val :=
    [("layoutDelims", Val.strList ["\x7b%", "%\x7d"]), ("layoutTag", Val.str "body")]
  views : JMap (JMap ViewV) := []
  typesLayout : List String := []
  typesPartials : List String := []
  router : List RegV := []

/-- Run a handler sequence; `next(err)` aborts (the default `handleError`
callback just records the reason and returns). -/
def runSeqV : List (ViewV → Option JErr × ViewV) → ViewV → ViewV
  | [], v => v
  | f :: fs, v =>
    match f v with
    | (some _, v') => v'
    | (none, v') => runSeqV fs v'

/-- The registrations matching a hook and path, in registration order. -/
def matchingV (regs : List RegV) (method : String) (p : String) :
    List (ViewV → Option JErr × ViewV) :=
  (regs.filter fun r => (r.hook.isNone || r.hook == some method) && r.pathMatch p).map
    (fun r => r.handler)

/-- The rewrite's `handle`: record the method, push it onto the view's
`handled` list (before the stack runs), emit, dispatch the matching
handlers. -/
def handleV (app : AppV) (method : String) (v : ViewV) : ViewV :=
  let v := { v with options := v.options.set "method" (.str method)
                    handled := v.handled ++ [method] }
  runSeqV (matchingV app.router method v.path) v

/-- The rewrite's `handleView`: dispatch only when the view has not already
been handled for the method. -/
def handleViewV (app : AppV) (method : String) (v : ViewV) : ViewV :=
  if method ∈ v.handled then v else handleV app method v

/-- Modelled from the spec: `view.context()` of the absent `lib/views`
module — the view's stored `locals` and `data` contexts merged in the
order the view decorator registers them (§3), extended with an argument
when given. -/
def viewContext (v : ViewV) (locals : JMap Val) : JMap Val :=
  JMap.extend (JMap.extend (JMap.extend [] v.locals) v.data) locals

def vLayoutEntry (v : ViewV) : LayoutEntry :=
  { content := v.content, next := v.layoutF }

/-- The rewrite's `applyLayout` together with a ghost flag telling whether
layout-chain resolution executed: guarded by `layoutApplied`; preLayout
hook, options built from app options / view options / view context, the
layout collections merged into one stack (later collections overwriting),
the wrap, recording `stack` and `layoutApplied`, storing the result into
the view's content, postLayout hook. -/
def applyLayoutVRan (app : AppV) (v : ViewV) : ViewV × Bool :=
  if optTruthy (v.options.get "layoutApplied") then (v, false)
  else
    let v := handleV app "preLayout" v
    let opts := JMap.extend (JMap.extend (JMap.extend [] app.options) v.options)
      (viewContext v [])
    let stack := app.typesLayout.foldl
      (fun st name => ((app.views.get name).getD []).foldl
        (fun st' kv => JMap.set st' kv.1 kv.2) st) ([] : JMap ViewV)
    let res := layoutsLib v.content v.layoutF
      (stack.map fun kv => (kv.1, vLayoutEntry kv.2)) opts
    let v := { v with
      options := (v.options.set "stack" (.pairs res.trace)).set "layoutApplied"
        (.bool true)
      content := res.result }
    let v := handleV app "postLayout" v
    (v, true)

def applyLayoutV (app : AppV) (v : ViewV) : ViewV :=
  (applyLayoutVRan app v).1

/-- `opts.mergePartials === true` (strict equality). -/
def isTrueV : Option Val → Bool
  | some (.bool true) => true
  | _ => false

/-- One view of the rewrite's `mergePartials`: run the `onMerge` middleware
(its side effects on the view are stored back), then either skip the view
(`nomerge`) or expose its content under the flattened or per-collection
namespace. -/
def mpStepV (mergeFlag : Bool) (name : String) (st : JMap Val × AppV)
    (kv : String × ViewV) : JMap Val × AppV :=
  let view := handleV st.2 "onMerge" kv.2
  let coll := ((st.2.views.get name).getD []).set kv.1 view
  let app := { st.2 with views := st.2.views.set name coll }
  if optTruthy (view.options.get "nomerge") then (st.1, app)
  else
    let ns := if mergeFlag then "partials" else name
    (T.setNested st.1 ns kv.1 (.str view.content), app)

/-- The per-collection reduce step of the rewrite's `mergePartials`. -/
def mpCollV (mergeFlag : Bool) (st : JMap Val × AppV) (name : String) :
    JMap Val × AppV :=
  ((st.2.views.get name).getD []).foldl (mpStepV mergeFlag name) st

/-- The rewrite's `mergePartials`: reduce over the partial collections (or
the explicitly requested ones) into a fresh object of namespaces. -/
def mergePartialsV (app : AppV) (locals : JMap Val)
    (keys : Option (List String)) : JMap Val × AppV :=
  let names := keys.getD app.typesPartials
  let opts := JMap.extend (JMap.extend [] app.options) locals
  let mergeFlag := isTrueV (opts.get "mergePartials")
  names.foldl (mpCollV mergeFlag) ([], app)

/-- The strict-equality merge flag `mergePartials` computes from the
instance options extended with the call locals. -/
def mergeFlagOf (app : AppV) (locals : JMap Val) : Bool :=
  isTrueV ((JMap.extend (JMap.extend [] app.options) locals).get "mergePartials")

end V

/-!  Projections, invariants and concrete instances used by the claim
theorems, their witnesses and counterexamples. -/

/-- The outcome a `render` caller observes (callback value or thrown). -/
def renderOutcome :
    Except JErr (T.App × T.Tmpl × Except JErr String) →
      Except JErr (Except JErr String)
  | .ok (_, _, o) => .ok o
  | .error e => .error e

/-- The accumulated error list after a `render` call (`none` = thrown). -/
def renderErrors :
    Except JErr (T.App × T.Tmpl × Except JErr String) → Option (List JErr)
  | .ok (a, _, _) => some a.errorsList
  | .error _ => none

/-- The namespace `mergePartials` exposes a partial collection under. -/
def nsOf (merge : Bool) (plural : String) : String :=
  if merge then "partials" else plural

/-- The invariant carried through `mergePartials`' folds once a partial has
been processed: its wrapped view is stored, its content is exposed under
its namespace, and the options object keeps distinct keys. -/
def mpInv (merge : Bool) (plural key : String) (v' : T.Tmpl)
    (st : JMap Val × T.App) : Prop :=
  (((st.2.views.get plural).getD []).get key = some v') ∧
  ((getObjD (st.1.get (nsOf merge plural))).get key = some (.str v'.content)) ∧
  JMap.WF st.1 ∧
  optTruthy (v'.options.get "layoutApplied") = true

/-- The corresponding invariant for the rewrite's `mergePartials`: the
`onMerge`-processed view is stored, and the accumulator exposes its content
exactly when it is not flagged `nomerge`. -/
def mpInvV (merge : Bool) (plural key : String) (v' : V.ViewV)
    (st : JMap Val × V.AppV) : Prop :=
  (((st.2.views.get plural).getD []).get key = some v') ∧
  ((getObjD (st.1.get (nsOf merge plural))).get key =
    (if optTruthy (v'.options.get "nomerge") then none
     else some (.str v'.content)))

/-- Before a partial is processed, its namespace slot is still unwritten. -/
def mpPreV (merge : Bool) (plural key : String)
    (st : JMap Val × V.AppV) : Prop :=
  (getObjD (st.1.get (nsOf merge plural))).get key = none

/-- A view with `layoutApplied` truthy (the guard of both `applyLayout`s). -/
def flagApplied (w : V.ViewV) : Prop :=
  optTruthy (w.options.get "layoutApplied") = true

/- Concrete instances. -/

def tC1 : T.Tmpl :=
  { data := [("title", .str "A")], locals := [("title", .str "B")] }

def appPrefLoc : T.App := { T.defaultApp with preferLocals := true }

def tP4 : T.Tmpl := { path := "home", content := "P" }
def tQ4 : T.Tmpl := { path := "home", content := "Q" }
def app4 : T.App := { T.defaultApp with
  typeRenderable := ["pages", "posts"]
  views := [("pages", [("home", tP4)]), ("posts", [("home", tQ4)])] }

def app5 : T.App := { T.defaultApp with
  typePartials := ["docs"]
  views := [("docs", [("a", { content := "aaa" : T.Tmpl })])] }

def app5off : T.App := { app5 with mergePartialsOpt := false }

def err8 : JErr := T.mkErr "EngineError" "boom" ""
def eng8 : T.EngineObj := { renderSyncFn := some fun _ _ => .error err8 }
def app8 : T.App := { T.defaultApp with silent := false }

def app10 : T.App := { T.defaultApp with
  typeLayout := ["layouts"]
  views := [("layouts", [("default", { content := "bbb\x7b% body %\x7dbbb" : T.Tmpl })])] }
def page10 : T.Tmpl :=
  { path := "home", content := "Home.", layoutF := some (.str "default") }

def vC2 : V.ViewV := { path := "p", content := "c" }
def appC2 : V.AppV := {}
def tC2 : T.Tmpl := { path := "q", content := "body text" }

def regC7 : V.RegV :=
  { hook := some "preRender", pathMatch := fun _ => true,
    handler := fun v => (none, { v with content := v.content ++ "X" }) }
def appC7 : V.AppV := { router := [regC7] }
def vC7 : V.ViewV := { path := "p", content := "c" }

def regC6 : V.RegV :=
  { hook := some "onMerge", pathMatch := fun p => p = "b",
    handler := fun v =>
      (none, { v with options := v.options.set "nomerge" (.bool true) }) }
def appC6 : V.AppV :=
  { typesPartials := ["foos"],
    router := [regC6],
    views := [("foos", [("a", { path := "a", content := "aaa" : V.ViewV }),
                        ("b", { path := "b", content := "bbb" : V.ViewV })])] }

/-!  Theorems.  First the object-algebra lemmas, then per-implementation
helper lemmas, then one theorem per claim (with witnesses and
counterexamples where required). -/

theorem JMap.get_set {α : Type} (m : JMap α) (k k' : String) (v : α) :
    (m.set k v).get k' = if k' = k then some v else m.get k' := by
  induction m with
  | nil =>
    by_cases h : k = k' <;> simp_all [set, get, eq_comm]
  | cons hd tl ih =>
    obtain ⟨k₀, v₀⟩ := hd
    by_cases h₀ : k₀ = k
    · by_cases h : k₀ = k' <;> simp_all [set, get, eq_comm]
    · by_cases h1 : k₀ = k' <;> by_cases h2 : k' = k <;>
        simp_all [set, get]

theorem JMap.get_eq_none_of_not_mem {α : Type} (m : JMap α) (k : String)
    (hk : k ∉ m.map Prod.fst) : m.get k = none := by
  induction m with
  | nil => rfl
  | cons hd tl ih =>
    obtain ⟨k₀, v₀⟩ := hd
    simp only [List.map_cons, List.mem_cons, not_or] at hk
    simp [get, Ne.symm hk.1, ih hk.2]

theorem JMap.get_extend {α : Type} (t s : JMap α) (k : String) (hs : WF s) :
    (t.extend s).get k = (s.get k).orElse (fun _ => t.get k) := by
  induction s generalizing t with
  | nil => simp [extend, get, Option.orElse]
  | cons hd tl ih =>
    obtain ⟨k₀, v₀⟩ := hd
    simp only [WF, List.map_cons, List.nodup_cons] at hs
    show ((t.set k₀ v₀).extend tl).get k = _
    rw [ih _ hs.2]
    by_cases h : k = k₀
    · subst h
      rw [get_eq_none_of_not_mem tl _ hs.1]
      simp [get, get_set, Option.orElse]
    · simp [get, get_set, h, Ne.symm h, Option.orElse]

theorem JMap.mem_keys_set {α : Type} (m : JMap α) (k : String) (v : α) (a : String) :
    a ∈ (m.set k v).map Prod.fst ↔ a ∈ m.map Prod.fst ∨ a = k := by
  induction m with
  | nil => simp [set]
  | cons hd tl ih =>
    obtain ⟨k₀, v₀⟩ := hd
    by_cases h₀ : k₀ = k
    · subst h₀
      simp [set]
      tauto
    · simp only [set, if_neg h₀, List.map_cons, List.mem_cons, ih]
      tauto

theorem JMap.set_wf {α : Type} (m : JMap α) (k : String) (v : α) (hm : WF m) :
    WF (m.set k v) := by
  induction m with
  | nil => simp [WF, set]
  | cons hd tl ih =>
    obtain ⟨k₀, v₀⟩ := hd
    simp only [WF, List.map_cons, List.nodup_cons] at hm
    by_cases h₀ : k₀ = k
    · simp only [WF, set, if_pos h₀, List.map_cons, List.nodup_cons]
      exact ⟨h₀ ▸ hm.1, hm.2⟩
    · have htl := ih hm.2
      simp only [WF, set, if_neg h₀, List.map_cons, List.nodup_cons]
      refine ⟨?_, htl⟩
      intro hmem
      rcases (mem_keys_set tl k v k₀).1 hmem with h | h
      · exact hm.1 h
      · exact h₀ h

theorem JMap.extend_wf {α : Type} (t s : JMap α) (ht : WF t) : WF (t.extend s) := by
  induction s generalizing t with
  | nil => exact ht
  | cons hd tl ih =>
    exact ih _ (set_wf t hd.1 hd.2 ht)


theorem JMap.mem_of_get_some {α : Type} (m : JMap α) (k : String) (v : α)
    (h : m.get k = some v) : k ∈ m.map Prod.fst := by
  induction m with
  | nil => simp [JMap.get] at h
  | cons hd tl ih =>
    obtain ⟨k₀, v₀⟩ := hd
    by_cases hk : k₀ = k
    · simp [hk]
    · simp only [JMap.get, if_neg hk] at h
      simp [ih h]

theorem JMap.not_mem_of_get_none {α : Type} (m : JMap α) (k : String)
    (h : m.get k = none) : k ∉ m.map Prod.fst := by
  intro hmem
  induction m with
  | nil => simp at hmem
  | cons hd tl ih =>
    obtain ⟨k₀, v₀⟩ := hd
    by_cases hk : k₀ = k
    · simp [JMap.get, hk] at h
    · simp only [JMap.get, if_neg hk] at h
      simp only [List.map_cons, List.mem_cons] at hmem
      rcases hmem with hmem | hmem
      · exact hk hmem.symm
      · exact ih h hmem

theorem JMap.get_some_split {α : Type} (m : JMap α) (k : String) (v : α)
    (hwf : WF m) (h : m.get k = some v) :
    ∃ l1 l2, m = l1 ++ (k, v) :: l2 ∧ k ∉ l1.map Prod.fst ∧
      k ∉ l2.map Prod.fst := by
  induction m with
  | nil => simp [JMap.get] at h
  | cons hd tl ih =>
    obtain ⟨k₀, v₀⟩ := hd
    simp only [WF, List.map_cons, List.nodup_cons] at hwf
    by_cases hk : k₀ = k
    · subst hk
      have hv : v₀ = v := by simpa [JMap.get] using h
      subst hv
      exact ⟨[], tl, rfl, by simp, hwf.1⟩
    · simp only [JMap.get, if_neg hk] at h
      obtain ⟨l1, l2, heq, h1, h2⟩ := ih hwf.2 h
      exact ⟨(k₀, v₀) :: l1, l2, by rw [heq]; rfl, by simp [h1, Ne.symm hk], h2⟩

theorem orElse_none_left {α : Type} (f : Unit → Option α) :
    (Option.orElse none f) = f () := rfl

theorem orElse_some_left {α : Type} (a : α) (f : Unit → Option α) :
    (Option.orElse (some a) f) = some a := rfl

/-- Reading a context built with no partial collections registered:
`mergePartials` only installs the `options` key on the passed context. -/
theorem T.mergePartialsT_no_collections (app : T.App) (ctx : JMap Val)
    (hnp : app.typePartials = []) :
    T.mergePartialsT app ctx =
      (ctx.set "options" (.obj (JMap.extend (getObjD (ctx.get "options"))
        (if app.mergePartialsOpt
          then (getObjD (ctx.get "options")).set "partials"
            (.obj (getObjD (ctx.get "partials")))
          else getObjD (ctx.get "options")))), app) := by
  simp [T.mergePartialsT, hnp]

/-- C9: the `silent` option is enabled at construction, so every error
raised through `Template#error` — including the argument errors of
`getView` (missing collection name) and `find` (missing template name) —
is appended to `errorsList` instead of being thrown; once `silent` is
disabled, `error` throws. -/
theorem claim_C9 :
    T.defaultApp.silent = true ∧
    (∀ (app : T.App) (m s fp : String), app.silent = true →
      T.errorM app m s fp =
        .ok { app with errorsList := app.errorsList ++ [T.mkErr m s fp] }) ∧
    (∀ (app : T.App) (m s fp : String), app.silent = false →
      T.errorM app m s fp = .error (T.mkErr m s fp)) ∧
    (∀ (app : T.App) (n : String), app.silent = true →
      T.getView app none n =
        .ok ({ app with errorsList := app.errorsList ++
          [T.mkErr "view" "expects a collection name." ""] }, none)) ∧
    (∀ (app : T.App) (ty : String) (st : Option (List String)),
      app.silent = true →
      T.findT app ty none st =
        .ok ({ app with errorsList := app.errorsList ++
          [T.mkErr "find" "expects `name` to be a string." ""] }, none)) := by
  refine ⟨rfl, ?_, ?_, ?_, ?_⟩ <;> intros <;>
    simp_all [T.errorM, T.getView, T.findT]

/-- Witness for C9 at the default-constructed instance. -/
theorem claim_C9_witness :
    T.defaultApp.silent = true ∧
    T.getView T.defaultApp none "home" =
      .ok ({ T.defaultApp with errorsList :=
        [T.mkErr "view" "expects a collection name." ""] }, none) := by
  refine ⟨claim_C9.1, ?_⟩
  simpa using claim_C9.2.2.2.1 T.defaultApp "home" rfl

/-- C8 (counterexample): with `silent` disabled and an engine whose
`renderSync` throws, `Template#renderSync` RETURNS the error object as the
render result instead of throwing it, and appends nothing. -/
theorem claim_C8_counterexample :
    app8.silent = false ∧
    T.renderSyncT app8 eng8 (.ok "x") [] = .ok (app8, .error err8) :=
  ⟨rfl, rfl⟩

/-- C8 (amended): a render call without a callback takes the synchronous
path (`renderBase` dispatches to `renderSync`); an engine error on that
path is caught and returned as an Error value — not thrown and not
appended to `errorsList` — independently of the `silent` option. -/
theorem claim_C8_amended (app : T.App) (e : T.EngineObj)
    (content : Except JErr String) (options : JMap Val) :
    (T.renderBase app e content options false =
      .syncO (T.renderSyncT app e content options)) ∧
    (∀ (f : String → JMap Val → Except JErr String) (s : String) (err : JErr),
      e.renderSyncFn = some f → f s options = .error err →
      T.renderSyncT app e (.ok s) options = .ok (app, .error err)) := by
  constructor
  · rfl
  · intro f s err hf herr
    simp [T.renderSyncT, hf, herr]

/-- Witness for C8 at a concrete throwing engine. -/
theorem claim_C8_witness :
    eng8.renderSyncFn.isSome = true ∧
    T.renderSyncT app8 eng8 (.ok "y") [] = .ok (app8, .error err8) := by
  refine ⟨rfl, ?_⟩
  exact (claim_C8_amended app8 eng8 (.ok "y") []).2 _ "y" err8 rfl rfl

/-- C1 (counterexample): a document with front-matter `title: A` and locals
`title: B` merged under the default options (`preferLocals` disabled)
yields `title = "A"` — `data` wins, not `locals` as the claim states. -/
theorem claim_C1_counterexample :
    (T.mergeContextT T.defaultApp tC1 []).1.get "title" ≠
      some (Val.str "B") := by
  intro h
  have hA : (T.mergeContextT T.defaultApp tC1 []).1.get "title" =
      some (Val.str "A") := rfl
  rw [hA] at h
  simp only [Option.some.injEq, Val.str.injEq] at h
  exact absurd h (by decide)

/-- C1 (amended): with `preferLocals` disabled (the default) the merged
context's `title` comes from the document's `data` ("A"); enabling
`preferLocals` makes `locals` win ("B") — the opposite of the claim.
The hypotheses pin the other context sources away from `title`. -/
theorem claim_C1_amended (app : T.App) (t : T.Tmpl) (locals : JMap Val)
    (a b : Val)
    (hda : t.data.get "title" = some a)
    (hlb : t.locals.get "title" = some b)
    (hwd : JMap.WF t.data) (hwl : JMap.WF t.locals)
    (hwloc : JMap.WF locals)
    (hnp : app.typePartials = [])
    (hlt : locals.get "title" = none)
    (hcc : (getObjD (app.cacheCtx.get "partials")).get "title" = none)
    (hwcc : JMap.WF (getObjD (app.cacheCtx.get "partials"))) :
    (T.mergeContextT app t locals).1.get "title" =
      some (if app.preferLocals then b else a) := by
  have hmp := T.mergePartialsT_no_collections app locals hnp
  simp only [T.mergeContextT, hmp]
  rw [JMap.get_extend _ _ _ hwcc, hcc, orElse_none_left]
  rw [JMap.get_extend _ _ _ (JMap.set_wf _ _ _ hwloc), JMap.get_set,
    if_neg (by decide : ¬("title" = "options")), hlt, orElse_none_left]
  cases hp : app.preferLocals
  · simp only [Bool.false_eq_true, if_false]
    rw [JMap.get_extend _ _ _ hwd, hda, orElse_some_left]
  · simp only [if_true]
    rw [JMap.get_extend _ _ _ hwl, hlb, orElse_some_left]

/-- Witness for C1 (amended) at the counterexample document. -/
theorem claim_C1_witness :
    tC1.data.get "title" = some (Val.str "A") ∧
    tC1.locals.get "title" = some (Val.str "B") ∧
    T.defaultApp.preferLocals = false ∧
    appPrefLoc.preferLocals = true ∧
    (T.mergeContextT T.defaultApp tC1 []).1.get "title" =
      some (Val.str "A") ∧
    (T.mergeContextT appPrefLoc tC1 []).1.get "title" =
      some (Val.str "B") := by
  refine ⟨rfl, rfl, rfl, rfl, ?_, ?_⟩
  · simpa using claim_C1_amended T.defaultApp tC1 [] _ _ rfl rfl
      (by decide) (by decide) (by decide) rfl rfl rfl (by decide)
  · simpa using claim_C1_amended appPrefLoc tC1 [] _ _ rfl rfl
      (by decide) (by decide) (by decide) rfl rfl rfl (by decide)

/-- Skipping collections that do not own the key. -/
theorem T.findFold_skip (l rest : List (String × JMap T.Tmpl)) (s : String)
    (h : ∀ c ∈ l, c.2.get s = none) :
    T.findFold (l ++ rest) s = T.findFold rest s := by
  induction l with
  | nil => rfl
  | cons c l ih =>
    obtain ⟨n, vs⟩ := c
    have hc : vs.get s = none := h (n, vs) (by simp)
    simp only [List.cons_append, T.findFold, hc]
    exact ih fun c hc' => h c (by simp [hc'])

/-- C4: a string given to `render` resolves to the first renderable
document with that key (scanning the renderable collections in
registration order) and is rendered as that stored document; with no
match it is rendered as an inline string. -/
theorem claim_C4 (app : T.App) (s : String) (locals : JMap Val) :
    (∀ t, T.findRenderable app s = some t →
      T.renderT app (.strIn s) locals = T.renderTemplateAsync app t locals) ∧
    (T.findRenderable app s = none →
      T.renderT app (.strIn s) locals = T.renderStringAsync app s locals) ∧
    (∀ (pre post : List String) (p : String) (t : T.Tmpl),
      app.typeRenderable = pre ++ p :: post →
      (∀ q ∈ pre, ((app.views.get q).getD []).get s = none) →
      ((app.views.get p).getD []).get s = some t →
      T.findRenderable app s = some t) := by
  refine ⟨?_, ?_, ?_⟩
  · intro t ht
    simp [T.renderT, ht]
  · intro h
    simp [T.renderT, h]
  · intro pre post p t hsplit hpre hp
    unfold T.findRenderable T.getType
    show T.findFold ((T.typeList app "renderable").map _) s = some t
    have : T.typeList app "renderable" = pre ++ p :: post := hsplit
    rw [this, List.map_append, List.map_cons]
    rw [T.findFold_skip]
    · simp [T.findFold, hp]
    · intro c hc
      rcases List.mem_map.1 hc with ⟨q, hq, rfl⟩
      exact hpre q hq

/-- Witness for C4: two renderable collections share the key `home`; the
first-registered one wins and `render` dispatches to it; a missing key
falls back to inline-string rendering. -/
theorem claim_C4_witness :
    T.findRenderable app4 "home" = some tP4 ∧
    T.renderT app4 (.strIn "home") [] = T.renderTemplateAsync app4 tP4 [] ∧
    T.renderT app4 (.strIn "nope") [] = T.renderStringAsync app4 "nope" [] := by
  have h1 := (claim_C4 app4 "home" []).2.2 [] ["posts"] "pages" tP4 rfl
    (by simp) rfl
  exact ⟨h1, (claim_C4 app4 "home" []).1 tP4 h1,
    (claim_C4 app4 "nope" []).2.1 rfl⟩

/-- A property preserved by every handler of a sequence is preserved by
running the sequence (also across an aborting `next(err)`). -/
theorem runSeqV_preserve (P : V.ViewV → Prop)
    (fs : List (V.ViewV → Option JErr × V.ViewV))
    (hf : ∀ f ∈ fs, ∀ w, P w → P (f w).2) (v : V.ViewV) (hv : P v) :
    P (V.runSeqV fs v) := by
  induction fs generalizing v with
  | nil => exact hv
  | cons f fs ih =>
    have h1 : P (f v).2 := hf f (by simp) v hv
    cases hfv : f v with
    | mk oe v' =>
      rw [hfv] at h1
      cases oe with
      | none =>
        simp only [V.runSeqV, hfv]
        exact ih (fun g hg w hw => hf g (by simp [hg]) w hw) v' h1
      | some e =>
        simp only [V.runSeqV, hfv]
        exact h1

/-- Every function in a matching stack is the handler of a registration. -/
theorem matchingV_sub (regs : List V.RegV) (m p : String)
    (f : V.ViewV → Option JErr × V.ViewV) (hf : f ∈ V.matchingV regs m p) :
    ∃ r ∈ regs, f = r.handler := by
  rcases List.mem_map.1 hf with ⟨r, hr, rfl⟩
  exact ⟨r, List.mem_of_mem_filter hr, rfl⟩

/-- `handle` keeps `layoutApplied` truthy when every registered handler
does. -/
theorem handleV_flag (app : V.AppV) (m : String) (v : V.ViewV)
    (hr : ∀ r ∈ app.router, ∀ w, flagApplied w → flagApplied (r.handler w).2)
    (hv : flagApplied v) : flagApplied (V.handleV app m v) := by
  unfold V.handleV
  apply runSeqV_preserve
  · intro f hf w hw
    rcases matchingV_sub app.router m _ f hf with ⟨r, hrr, rfl⟩
    exact hr r hrr w hw
  · unfold flagApplied at hv ⊢
    rw [JMap.get_set, if_neg (by decide : ¬("layoutApplied" = "method"))]
    exact hv

/-- `handle` keeps a hook membership in `handled` when every registered
handler does. -/
theorem handleV_handled (app : V.AppV) (m h : String) (v : V.ViewV)
    (hr : ∀ r ∈ app.router, ∀ w : V.ViewV,
      h ∈ w.handled → h ∈ ((r.handler w).2).handled)
    (hv : h ∈ v.handled ++ [m]) : h ∈ (V.handleV app m v).handled := by
  unfold V.handleV
  exact runSeqV_preserve (fun w => h ∈ w.handled) _
    (fun f hf w hw => by
      rcases matchingV_sub app.router m _ f hf with ⟨r, hrr, rfl⟩
      exact hr r hrr w hw) _ hv

/-- Both branches of the rewrite's `applyLayout` leave `layoutApplied`
truthy, as long as the layout middleware preserves it. -/
theorem applyLayoutV_flag (app : V.AppV) (v : V.ViewV)
    (hr : ∀ r ∈ app.router, ∀ w, flagApplied w → flagApplied (r.handler w).2) :
    flagApplied (V.applyLayoutV app v) := by
  unfold V.applyLayoutV V.applyLayoutVRan
  by_cases hg : optTruthy (v.options.get "layoutApplied") = true
  · rw [if_pos hg]
    exact hg
  · rw [if_neg hg]
    dsimp only
    apply handleV_flag app "postLayout" _ hr
    unfold flagApplied
    rw [JMap.get_set, if_pos rfl]
    rfl

/-- C2: `applyLayout` is idempotent.  In the rewrite (which stores the
wrapped string into the view), a second call returns the view of the first
call unchanged and does not re-run layout-chain resolution (`ran = false`),
provided the layout middleware keeps the `layoutApplied` flag.  In
`index.js` — whose `applyLayout` returns the wrapped string for the caller
to store — a second call on the document holding the first call's result
returns that content unchanged with no resolution. -/
theorem claim_C2 :
    (∀ (app : V.AppV) (v : V.ViewV),
      (∀ r ∈ app.router, ∀ w,
        flagApplied w → flagApplied (r.handler w).2) →
      V.applyLayoutVRan app (V.applyLayoutV app v) =
        (V.applyLayoutV app v, false)) ∧
    (∀ (app : T.App) (t : T.Tmpl) (ctx : JMap Val),
      T.applyLayoutT (T.applyLayoutT app t ctx).app
        { (T.applyLayoutT app t ctx).tmpl with
            content := (T.applyLayoutT app t ctx).result }
        (T.applyLayoutT app t ctx).ctx =
      ⟨(T.applyLayoutT app t ctx).result,
        { (T.applyLayoutT app t ctx).tmpl with
            content := (T.applyLayoutT app t ctx).result },
        (T.applyLayoutT app t ctx).ctx, (T.applyLayoutT app t ctx).app,
        false⟩) := by
  constructor
  · intro app v hr
    have hflag := applyLayoutV_flag app v hr
    unfold flagApplied at hflag
    simp [V.applyLayoutVRan, hflag]
  · intro app t ctx
    by_cases hg : optTruthy (t.options.get "layoutApplied") = true
    · simp [T.applyLayoutT, hg]
    · simp only [T.applyLayoutT, hg, if_neg, Bool.not_eq_true, if_false]
      have hflag : ∀ tr : List (String × String),
          optTruthy ((((t.options.set "layoutApplied" (.bool true)).set
            "layoutStack" (.pairs tr))).get "layoutApplied") = true := by
        intro tr
        rw [JMap.get_set, if_neg (by decide :
          ¬("layoutApplied" = "layoutStack")), JMap.get_set, if_pos rfl]
        rfl
      simp [hflag]

/-- Witness for C2 with an empty router (no layout middleware). -/
theorem claim_C2_witness :
    appC2.router = [] ∧
    V.applyLayoutVRan appC2 (V.applyLayoutV appC2 vC2) =
      (V.applyLayoutV appC2 vC2, false) := by
  refine ⟨rfl, ?_⟩
  exact claim_C2.1 appC2 vC2 (by intro r hr; simp [appC2] at hr)

/-- C7: middleware dispatch semantics of the rewrite.  Matching handlers
run in registration order (`matchingV` respects concatenation and a
successful prefix runs before the rest); `handle` always marks the method
on the view's `handled` list and runs the stack regardless of the guard;
`handleView` dispatches only when the method is not yet in `handled`, so
the document ends up marked and a second guarded dispatch is a no-op — the
handlers run exactly once across two guarded dispatches — provided the
handlers themselves keep the mark in place. -/
theorem claim_C7 :
    (∀ (app : V.AppV) (h : String) (v : V.ViewV),
      (∀ r ∈ app.router, ∀ w : V.ViewV,
        h ∈ w.handled → h ∈ ((r.handler w).2).handled) →
      (V.handleViewV app h (V.handleViewV app h v) = V.handleViewV app h v) ∧
      h ∈ (V.handleViewV app h v).handled ∧
      (h ∉ v.handled → V.handleViewV app h v = V.handleV app h v) ∧
      (h ∈ v.handled → V.handleViewV app h v = v)) ∧
    (∀ (app : V.AppV) (h : String) (v : V.ViewV),
      V.handleV app h v =
        V.runSeqV (V.matchingV app.router h v.path)
          { v with options := v.options.set "method" (.str h),
                   handled := v.handled ++ [h] }) ∧
    (∀ (regs1 regs2 : List V.RegV) (h p : String),
      V.matchingV (regs1 ++ regs2) h p =
        V.matchingV regs1 h p ++ V.matchingV regs2 h p) ∧
    (∀ (fs1 fs2 : List (V.ViewV → Option JErr × V.ViewV)) (v : V.ViewV),
      (∀ f ∈ fs1, ∀ w, (f w).1 = none) →
      V.runSeqV (fs1 ++ fs2) v = V.runSeqV fs2 (V.runSeqV fs1 v)) := by
  refine ⟨?_, ?_, ?_, ?_⟩
  · intro app h v hr
    have hmem : h ∈ (V.handleViewV app h v).handled := by
      unfold V.handleViewV
      by_cases hv : h ∈ v.handled
      · rw [if_pos hv]
        exact hv
      · rw [if_neg hv]
        exact handleV_handled app h h v hr (by simp)
    refine ⟨?_, hmem, ?_, ?_⟩
    · show V.handleViewV app h (V.handleViewV app h v) = _
      unfold V.handleViewV
      rw [if_pos]
      exact hmem
    · intro hv
      unfold V.handleViewV
      rw [if_neg hv]
    · intro hv
      unfold V.handleViewV
      rw [if_pos hv]
  · intro app h v
    rfl
  · intro regs1 regs2 h p
    simp [V.matchingV, List.filter_append]
  · intro fs1 fs2 v hok
    induction fs1 generalizing v with
    | nil => rfl
    | cons f fs ih =>
      have h1 := hok f (by simp) v
      cases hfv : f v with
      | mk oe v' =>
        rw [hfv] at h1
        subst h1
        simp only [List.cons_append, V.runSeqV, hfv]
        exact ih v' (fun g hg w => hok g (by simp [hg]) w)

/-- Witness for C7: a match-all `preRender` handler appending `X` runs once
across two guarded dispatches. -/
theorem claim_C7_witness :
    vC7.handled = [] ∧
    V.handleViewV appC7 "preRender" (V.handleViewV appC7 "preRender" vC7) =
      V.handleViewV appC7 "preRender" vC7 ∧
    "preRender" ∈ (V.handleViewV appC7 "preRender" vC7).handled := by
  have h := (claim_C7.1 appC7 "preRender" vC7 (by
    intro r hrr w hw
    simp only [appC7, List.mem_singleton] at hrr
    subst hrr
    simpa [regC7] using hw))
  exact ⟨rfl, h.1, h.2.1⟩

/-- C3 (counterexample): on a default-constructed instance with no stored
documents, `render("missing.md")` does not fail at all — the string is
rendered inline through the wildcard noop engine, the callback receives
`"missing.md"`, and the error list stays empty.  No `NotFoundError` (or
error of any kind) is produced. -/
theorem claim_C3_counterexample :
    renderOutcome (T.renderT T.defaultApp (.strIn "missing.md") []) =
      .ok (.ok "missing.md") ∧
    renderErrors (T.renderT T.defaultApp (.strIn "missing.md") []) =
      some [] :=
  ⟨rfl, rfl⟩

/-- C3 (amended): a `render` call with a string that matches no renderable
document is treated as an inline template and rendered through the
wildcard noop engine: it succeeds with the string itself and records no
error; the source defines no `NotFoundError` and this path cannot fail. -/
theorem claim_C3_amended (s : String) :
    T.findRenderable T.defaultApp s = none ∧
    renderOutcome (T.renderT T.defaultApp (.strIn s) []) = .ok (.ok s) ∧
    renderErrors (T.renderT T.defaultApp (.strIn s) []) = some [] :=
  ⟨rfl, rfl, rfl⟩

/-- C10: construction registers the noop engine under `.*`; `getEngine`
with no (or an empty) extension falls back to it through the `*` view
engine; its compile/render leave the input unchanged; hence rendering an
inline string succeeds with the string itself, and rendering a document
whose layout is registered succeeds with the layout-applied content. -/
theorem claim_C10 :
    T.defaultApp.engines.get ".*" = some T.noopEngine ∧
    T.getEngine T.defaultApp none = some T.noopEngine ∧
    T.getEngine T.defaultApp (some "") = some T.noopEngine ∧
    (∀ (s : String) (ctx : JMap Val),
      T.noopEngine.renderFn.map (fun f => f s ctx) = some (.ok s) ∧
      T.noopEngine.compileFn.map (fun f => f s ctx) = some (.ok s)) ∧
    (∀ s : String,
      renderOutcome (T.renderT T.defaultApp (.strIn s) []) = .ok (.ok s)) ∧
    renderOutcome (T.renderT app10 (.tmplIn page10) []) =
      .ok (.ok "bbbHome.bbb") :=
  ⟨rfl, rfl, rfl, fun _ _ => ⟨rfl, rfl⟩, fun _ => rfl, rfl⟩

theorem T.mergeTypeContext_views (app : T.App) (ty k : String)
    (l d : JMap Val) : (T.mergeTypeContext app ty k l d).views = app.views :=
  rfl

theorem foldl_mtc_views (L : List (String × T.Tmpl)) (app : T.App) :
    (List.foldl (fun a kv =>
        T.mergeTypeContext a "layouts" kv.1 kv.2.locals kv.2.data) app
      L).views = app.views := by
  induction L generalizing app with
  | nil => rfl
  | cons hd tl ih =>
    rw [List.foldl_cons, ih]
    rfl

theorem T.mergeLayouts_views (app : T.App) :
    (T.mergeLayouts app).2.views = app.views := by
  unfold T.mergeLayouts
  exact foldl_mtc_views _ _

theorem T.applyLayoutT_views (app : T.App) (t : T.Tmpl) (ctx : JMap Val) :
    (T.applyLayoutT app t ctx).app.views = app.views := by
  unfold T.applyLayoutT
  by_cases hg : optTruthy (t.options.get "layoutApplied") = true
  · rw [if_pos hg]
  · rw [if_neg hg]
    dsimp only
    exact T.mergeLayouts_views app

theorem T.applyLayoutT_applied (app : T.App) (t : T.Tmpl) (ctx : JMap Val) :
    optTruthy ((T.applyLayoutT app t ctx).tmpl.options.get "layoutApplied") =
      true := by
  unfold T.applyLayoutT
  by_cases hg : optTruthy (t.options.get "layoutApplied") = true
  · rw [if_pos hg]
    exact hg
  · rw [if_neg hg]
    dsimp only
    rw [JMap.get_set,
      if_neg (by decide : ¬("layoutApplied" = "layoutStack")),
      JMap.get_set, if_pos rfl]
    rfl

theorem T.mpWrap_views (st : JMap Val × T.App) (plural : String)
    (kv : String × T.Tmpl) : (T.mpWrap st plural kv).2.views = st.2.views := by
  unfold T.mpWrap
  dsimp only
  rw [T.applyLayoutT_views, T.mergeTypeContext_views]

theorem T.mpWrap_flag (st : JMap Val × T.App) (plural : String)
    (kv : String × T.Tmpl) :
    optTruthy ((T.mpWrap st plural kv).1.options.get "layoutApplied") =
      true := by
  unfold T.mpWrap
  dsimp only
  exact T.applyLayoutT_applied _ _ _

theorem T.mpStep_fst (merge : Bool) (plural : String) (st : JMap Val × T.App)
    (kv : String × T.Tmpl) :
    (T.mpStep merge plural st kv).1 =
      T.setNested st.1 (nsOf merge plural) kv.1
        (.str (T.mpWrap st plural kv).1.content) := by
  cases merge <;> rfl

theorem T.mpStep_views (merge : Bool) (plural : String)
    (st : JMap Val × T.App) (kv : String × T.Tmpl) :
    (T.mpStep merge plural st kv).2.views =
      st.2.views.set plural
        (((st.2.views.get plural).getD []).set kv.1
          (T.mpWrap st plural kv).1) := by
  unfold T.mpStep
  dsimp only
  rw [T.mpWrap_views]

theorem T.mpStep_wf (merge : Bool) (plural : String) (st : JMap Val × T.App)
    (kv : String × T.Tmpl) (h : JMap.WF st.1) :
    JMap.WF (T.mpStep merge plural st kv).1 := by
  rw [T.mpStep_fst]
  exact JMap.set_wf _ _ _ h

theorem T.mpStep_views_other (merge : Bool) (name : String)
    (st : JMap Val × T.App) (kv : String × T.Tmpl) (q : String)
    (hq : q ≠ name) :
    (T.mpStep merge name st kv).2.views.get q = st.2.views.get q := by
  rw [T.mpStep_views, JMap.get_set, if_neg hq]

/-- A processed partial's invariant survives any later `mpStep` whose
collection/namespace does not collide on the key. -/
theorem mpInv_step (merge : Bool) (plural key : String) (v' : T.Tmpl)
    (plural2 : String) (st : JMap Val × T.App) (kv : String × T.Tmpl)
    (h1 : plural2 = plural → kv.1 ≠ key)
    (h2 : nsOf merge plural2 = nsOf merge plural → kv.1 ≠ key)
    (hI : mpInv merge plural key v' st) :
    mpInv merge plural key v' (T.mpStep merge plural2 st kv) := by
  obtain ⟨hs, he, hw, hf⟩ := hI
  refine ⟨?_, ?_, T.mpStep_wf _ _ _ _ hw, hf⟩
  · rw [T.mpStep_views, JMap.get_set]
    by_cases hp : plural = plural2
    · rw [if_pos hp]
      have hk : kv.1 ≠ key := h1 hp.symm
      subst hp
      simp only [Option.getD_some]
      rw [JMap.get_set, if_neg (fun h => hk h.symm)]
      exact hs
    · rw [if_neg hp]
      exact hs
  · rw [T.mpStep_fst]
    unfold T.setNested
    rw [JMap.get_set]
    by_cases hn : nsOf merge plural = nsOf merge plural2
    · rw [if_pos hn]
      have hk : kv.1 ≠ key := h2 hn.symm
      simp only [getObjD]
      rw [JMap.get_set, if_neg (fun h => hk h.symm)]
      rw [← hn]
      exact he
    · rw [if_neg hn]
      exact he

theorem mpInv_foldl (merge : Bool) (plural key : String) (v' : T.Tmpl)
    (plural2 : String) (L : List (String × T.Tmpl)) (st : JMap Val × T.App)
    (hL : ∀ kv ∈ L, (plural2 = plural → kv.1 ≠ key) ∧
      (nsOf merge plural2 = nsOf merge plural → kv.1 ≠ key))
    (hI : mpInv merge plural key v' st) :
    mpInv merge plural key v' (L.foldl (T.mpStep merge plural2) st) := by
  induction L generalizing st with
  | nil => exact hI
  | cons kv L ih =>
    rw [List.foldl_cons]
    exact ih _ (fun c hc => hL c (by simp [hc]))
      (mpInv_step merge plural key v' plural2 st kv
        (hL kv (by simp)).1 (hL kv (by simp)).2 hI)

theorem foldl_mpStep_wf (merge : Bool) (plural2 : String)
    (L : List (String × T.Tmpl)) (st : JMap Val × T.App)
    (h : JMap.WF st.1) :
    JMap.WF ((L.foldl (T.mpStep merge plural2) st).1) := by
  induction L generalizing st with
  | nil => exact h
  | cons kv L ih =>
    rw [List.foldl_cons]
    exact ih _ (T.mpStep_wf _ _ _ _ h)

theorem foldl_mpStep_views_other (merge : Bool) (name : String)
    (L : List (String × T.Tmpl)) (st : JMap Val × T.App) (q : String)
    (hq : q ≠ name) :
    ((L.foldl (T.mpStep merge name) st).2.views.get q) =
      st.2.views.get q := by
  induction L generalizing st with
  | nil => rfl
  | cons kv L ih =>
    rw [List.foldl_cons, ih _, T.mpStep_views_other _ _ _ _ _ hq]

/-- Processing a partial establishes the invariant, with the stored view
being the wrap of the listed one. -/
theorem mpInv_establish (merge : Bool) (plural key : String) (v : T.Tmpl)
    (st : JMap Val × T.App) (hw : JMap.WF st.1) :
    mpInv merge plural key ((T.mpWrap st plural (key, v)).1)
      (T.mpStep merge plural st (key, v)) := by
  refine ⟨?_, ?_, T.mpStep_wf _ _ _ _ hw, T.mpWrap_flag _ _ _⟩
  · rw [T.mpStep_views, JMap.get_set, if_pos rfl]
    simp only [Option.getD_some]
    rw [JMap.get_set, if_pos rfl]
  · rw [T.mpStep_fst]
    unfold T.setNested
    rw [JMap.get_set, if_pos rfl]
    simp only [getObjD]
    rw [JMap.get_set, if_pos rfl]

theorem mpColl_views_other (merge : Bool) (st : JMap Val × T.App)
    (name q : String) (hq : q ≠ name) :
    (T.mpColl merge st name).2.views.get q = st.2.views.get q := by
  unfold T.mpColl
  exact foldl_mpStep_views_other _ _ _ _ _ hq

theorem mpColl_wf (merge : Bool) (st : JMap Val × T.App) (name : String)
    (h : JMap.WF st.1) : JMap.WF (T.mpColl merge st name).1 := by
  unfold T.mpColl
  exact foldl_mpStep_wf _ _ _ _ h

theorem mpColl_inv (merge : Bool) (plural key : String) (v' : T.Tmpl)
    (st : JMap Val × T.App) (name : String)
    (hks : ∀ kv ∈ ((st.2.views.get name).getD [] : JMap T.Tmpl),
      (name = plural → kv.1 ≠ key) ∧
      (nsOf merge name = nsOf merge plural → kv.1 ≠ key))
    (hI : mpInv merge plural key v' st) :
    mpInv merge plural key v' (T.mpColl merge st name) := by
  unfold T.mpColl
  exact mpInv_foldl merge plural key v' name _ st hks hI

theorem outer_keep (merge : Bool) (P1 : List String)
    (st : JMap Val × T.App) (q : String) (hq : q ∉ P1) :
    ((P1.foldl (T.mpColl merge) st).2.views.get q = st.2.views.get q) ∧
    (JMap.WF st.1 → JMap.WF (P1.foldl (T.mpColl merge) st).1) := by
  induction P1 generalizing st with
  | nil => exact ⟨rfl, fun h => h⟩
  | cons n P1 ih =>
    simp only [List.mem_cons, not_or] at hq
    rw [List.foldl_cons]
    refine ⟨?_, fun h => (ih _ hq.2).2 (mpColl_wf _ _ _ h)⟩
    rw [(ih _ hq.2).1, mpColl_views_other _ _ _ _ hq.1]

theorem outer_inv (merge : Bool) (plural key : String) (v' : T.Tmpl)
    (origV : String → JMap T.Tmpl) :
    ∀ (P2 : List String) (st : JMap Val × T.App),
      plural ∉ P2 → P2.Nodup →
      (∀ name ∈ P2, ((st.2.views.get name).getD [] : JMap T.Tmpl) =
        origV name) →
      (∀ name ∈ P2, ∀ kv ∈ origV name,
        nsOf merge name = nsOf merge plural → kv.1 ≠ key) →
      mpInv merge plural key v' st →
      mpInv merge plural key v' (P2.foldl (T.mpColl merge) st) := by
  intro P2
  induction P2 with
  | nil => exact fun st _ _ _ _ hI => hI
  | cons n P2 ih =>
    intro st hnp hnd horig hkeys hI
    simp only [List.mem_cons, not_or] at hnp
    simp only [List.nodup_cons] at hnd
    rw [List.foldl_cons]
    refine ih _ hnp.2 hnd.2 ?_ ?_ ?_
    · intro m hm
      rw [← horig m (by simp [hm])]
      unfold T.mpColl
      rw [foldl_mpStep_views_other]
      intro hmn
      exact hnd.1 (hmn ▸ hm)
    · intro m hm kv hkv
      exact hkeys m (by simp [hm]) kv hkv
    · apply mpColl_inv
      · intro kv hkv
        refine ⟨fun h => absurd h.symm hnp.1, ?_⟩
        rw [horig n (by simp)] at hkv
        exact hkeys n (by simp) kv hkv
      · exact hI

/-- C5 (counterexample): on a default-constructed instance (where
`defaultOptions` ENABLES `mergePartials`) with a partial collection
`docs` holding `a`, the merged context exposes `partials.a` — not
`docs.a` as the claim's "flag false/default ⇒ per-collection" asserts
for the default. -/
theorem claim_C5_counterexample :
    app5.mergePartialsOpt = true ∧
    (getObjD ((getObjD ((T.mergePartialsT app5 []).1.get "options")).get
      "docs")).get "a" = none ∧
    (getObjD ((getObjD ((T.mergePartialsT app5 []).1.get "options")).get
      "partials")).get "a" = some (.str "aaa") :=
  ⟨rfl, rfl, rfl⟩

/-- C5 (amended): `mergePartials` exposes every partial's layout-applied
content as a plain string — under the flattened `partials.<key>` namespace
when the `mergePartials` flag is true, and under the per-collection
`<collectionName>.<key>` namespace when it is false; the flag is ENABLED
by `defaultOptions`, so the default is the flattened namespace.  (The
hypotheses say the collections are well-formed JS objects and the key is
owned by exactly one partial collection.) -/
theorem claim_C5_amended (app : T.App) (ctx : JMap Val) (plural key : String)
    (v : T.Tmpl)
    (hnd : app.typePartials.Nodup)
    (hmem : plural ∈ app.typePartials)
    (hwfc : JMap.WF ((app.views.get plural).getD [] : JMap T.Tmpl))
    (hv : ((app.views.get plural).getD [] : JMap T.Tmpl).get key = some v)
    (hothers : ∀ p ∈ app.typePartials, p ≠ plural →
      ((app.views.get p).getD [] : JMap T.Tmpl).get key = none)
    (hwo : JMap.WF (getObjD (ctx.get "options"))) :
    T.defaultApp.mergePartialsOpt = true ∧
    ∃ v' : T.Tmpl,
      (((T.mergePartialsT app ctx).2.views.get plural).getD [] :
        JMap T.Tmpl).get key = some v' ∧
      optTruthy (v'.options.get "layoutApplied") = true ∧
      (getObjD ((getObjD ((T.mergePartialsT app ctx).1.get "options")).get
        (nsOf app.mergePartialsOpt plural))).get key =
          some (.str v'.content) := by
  refine ⟨rfl, ?_⟩
  obtain ⟨P1, P2, hsplit⟩ := List.append_of_mem hmem
  have hnd' : (P1 ++ plural :: P2).Nodup := hsplit ▸ hnd
  have hdisj := List.disjoint_of_nodup_append hnd'
  have hP1 : plural ∉ P1 := fun hc => hdisj hc (by simp)
  have hP2nd : P2.Nodup := (hnd'.of_append_right).of_cons
  have hP2 : plural ∉ P2 := by
    have := hnd'.of_append_right
    simp only [List.nodup_cons] at this
    exact this.1
  have hP2P1 : ∀ m ∈ P2, m ∉ P1 := fun m hm hc => hdisj hc (by simp [hm])
  have hP2ne : ∀ m ∈ P2, m ≠ plural := fun m hm hc => hP2 (hc ▸ hm)
  set merge := app.mergePartialsOpt with hmg
  set opts0 : JMap Val := (if merge = true
    then (getObjD (ctx.get "options")).set "partials"
      (.obj (getObjD (ctx.get "partials")))
    else getObjD (ctx.get "options")) with hopts0
  have hwo0 : JMap.WF opts0 := by
    rw [hopts0]
    cases merge
    · simpa using hwo
    · simp only [if_pos rfl]
      exact JMap.set_wf _ _ _ hwo
  set st0 : JMap Val × T.App := (opts0, app) with hst0
  set stA := P1.foldl (T.mpColl merge) st0 with hstA
  have hkeepA := outer_keep merge P1 st0 plural hP1
  have hCA : ((stA.2.views.get plural).getD [] : JMap T.Tmpl) =
      ((app.views.get plural).getD [] : JMap T.Tmpl) := by
    rw [hstA, hkeepA.1]
  have hwfA : JMap.WF stA.1 := hkeepA.2 hwo0
  obtain ⟨C1, C2, hC, hk1, hk2⟩ :=
    JMap.get_some_split _ key v hwfc hv
  set stM := C1.foldl (T.mpStep merge plural) stA with hstM
  have hwfM : JMap.WF stM.1 := foldl_mpStep_wf _ _ _ _ hwfA
  set v' := (T.mpWrap stM plural (key, v)).1 with hv'
  have hEst := mpInv_establish merge plural key v stM hwfM
  have hB : mpInv merge plural key v' (T.mpColl merge stA plural) := by
    unfold T.mpColl
    rw [hCA, hC, List.foldl_append, List.foldl_cons]
    apply mpInv_foldl
    · intro kv hkv
      have : kv.1 ≠ key := by
        intro hc
        exact hk2 (hc ▸ List.mem_map_of_mem Prod.fst hkv)
      exact ⟨fun _ => this, fun _ => this⟩
    · exact hEst
  set stB := T.mpColl merge stA plural with hstB
  have hF : mpInv merge plural key v'
      (P2.foldl (T.mpColl merge) stB) := by
    apply outer_inv merge plural key v'
      (fun name => ((app.views.get name).getD [] : JMap T.Tmpl)) P2 stB
      hP2 hP2nd
    · intro m hm
      rw [hstB, mpColl_views_other _ _ _ _ (hP2ne m hm), hstA,
        (outer_keep merge P1 st0 m (hP2P1 m hm)).1]
    · intro m hm kv hkv hns
      intro hc
      have hnone := hothers m (by rw [hsplit]; simp [hm]) (hP2ne m hm)
      exact JMap.not_mem_of_get_none _ _ hnone
        (hc ▸ List.mem_map_of_mem Prod.fst hkv)
    · exact hB
  have hfold : app.typePartials.foldl (T.mpColl merge) st0 =
      P2.foldl (T.mpColl merge) stB := by
    rw [hsplit, List.foldl_append, List.foldl_cons]
  have hmp : T.mergePartialsT app ctx =
      (ctx.set "options" (.obj (JMap.extend (getObjD (ctx.get "options"))
        (P2.foldl (T.mpColl merge) stB).1)),
       (P2.foldl (T.mpColl merge) stB).2) := by
    unfold T.mergePartialsT
    dsimp only
    rw [← hmg, ← hopts0, ← hst0, hfold]
  obtain ⟨hs, he, hw, hfl⟩ := hF
  refine ⟨v', ?_, hfl, ?_⟩
  · rw [hmp]
    exact hs
  · rw [hmp]
    dsimp only
    rw [JMap.get_set, if_pos rfl]
    simp only [getObjD]
    rw [JMap.get_extend _ _ _ hw]
    rcases hns : (P2.foldl (T.mpColl merge) stB).1.get
        (nsOf merge plural) with _ | w
    · rw [hns] at he
      simp [getObjD, JMap.get] at he
    · rw [hns] at he
      cases w with
      | obj o =>
        rw [orElse_some_left]
        exact he
      | str s => simp [getObjD, JMap.get] at he
      | bool b => simp [getObjD, JMap.get] at he
      | strList l => simp [getObjD, JMap.get] at he
      | pairs l => simp [getObjD, JMap.get] at he

/-- Witness for C5 (amended) at the counterexample instance and its
flag-disabled variant. -/
theorem claim_C5_witness :
    app5.typePartials = ["docs"] ∧
    (∃ v' : T.Tmpl,
      (((T.mergePartialsT app5 []).2.views.get "docs").getD [] :
        JMap T.Tmpl).get "a" = some v' ∧
      optTruthy (v'.options.get "layoutApplied") = true ∧
      (getObjD ((getObjD ((T.mergePartialsT app5 []).1.get "options")).get
        (nsOf app5.mergePartialsOpt "docs"))).get "a" =
          some (.str v'.content)) ∧
    (∃ v' : T.Tmpl,
      (((T.mergePartialsT app5off []).2.views.get "docs").getD [] :
        JMap T.Tmpl).get "a" = some v' ∧
      optTruthy (v'.options.get "layoutApplied") = true ∧
      (getObjD ((getObjD ((T.mergePartialsT app5off []).1.get "options")).get
        (nsOf app5off.mergePartialsOpt "docs"))).get "a" =
          some (.str v'.content)) := by
  refine ⟨rfl, ?_, ?_⟩
  · exact (claim_C5_amended app5 [] "docs" "a" { content := "aaa" }
      (by decide) (by simp [app5]) (by decide) rfl
      (by intro p hp hne; simp [app5] at hp; exact absurd hp hne)
      (by decide)).2
  · exact (claim_C5_amended app5off [] "docs" "a" { content := "aaa" }
      (by decide) (by simp [app5off, app5]) (by decide) rfl
      (by intro p hp hne; simp [app5off, app5] at hp; exact absurd hp hne)
      (by decide)).2

theorem V.handleV_congr (a b : V.AppV) (m : String) (v : V.ViewV)
    (h : a.router = b.router) : V.handleV a m v = V.handleV b m v := by
  unfold V.handleV
  rw [h]

theorem V.mpStepV_views (m : Bool) (n : String) (st : JMap Val × V.AppV)
    (kv : String × V.ViewV) :
    (V.mpStepV m n st kv).2.views =
      st.2.views.set n (((st.2.views.get n).getD []).set kv.1
        (V.handleV st.2 "onMerge" kv.2)) := by
  unfold V.mpStepV
  dsimp only
  split <;> rfl

theorem V.mpStepV_fst (m : Bool) (n : String) (st : JMap Val × V.AppV)
    (kv : String × V.ViewV) :
    (V.mpStepV m n st kv).1 =
      (if optTruthy ((V.handleV st.2 "onMerge" kv.2).options.get "nomerge")
       then st.1
       else T.setNested st.1 (nsOf m n) kv.1
         (.str (V.handleV st.2 "onMerge" kv.2).content)) := by
  unfold V.mpStepV nsOf
  dsimp only
  split <;> rfl

theorem V.mpStepV_router (m : Bool) (n : String) (st : JMap Val × V.AppV)
    (kv : String × V.ViewV) :
    (V.mpStepV m n st kv).2.router = st.2.router := by
  unfold V.mpStepV
  dsimp only
  split <;> rfl

theorem V.mpStepV_views_other (m : Bool) (n : String)
    (st : JMap Val × V.AppV) (kv : String × V.ViewV) (q : String)
    (hq : q ≠ n) :
    (V.mpStepV m n st kv).2.views.get q = st.2.views.get q := by
  rw [V.mpStepV_views, JMap.get_set, if_neg hq]

theorem foldl_mpStepV_router (m : Bool) (n : String)
    (L : List (String × V.ViewV)) (st : JMap Val × V.AppV) :
    ((L.foldl (V.mpStepV m n) st).2.router) = st.2.router := by
  induction L generalizing st with
  | nil => rfl
  | cons kv L ih =>
    rw [List.foldl_cons, ih, V.mpStepV_router]

theorem foldl_mpStepV_views_other (m : Bool) (n : String)
    (L : List (String × V.ViewV)) (st : JMap Val × V.AppV) (q : String)
    (hq : q ≠ n) :
    ((L.foldl (V.mpStepV m n) st).2.views.get q) = st.2.views.get q := by
  induction L generalizing st with
  | nil => rfl
  | cons kv L ih =>
    rw [List.foldl_cons, ih, V.mpStepV_views_other _ _ _ _ _ hq]

theorem mpCollV_router (m : Bool) (st : JMap Val × V.AppV) (n : String) :
    (V.mpCollV m st n).2.router = st.2.router := by
  unfold V.mpCollV
  exact foldl_mpStepV_router _ _ _ _

theorem mpCollV_views_other (m : Bool) (st : JMap Val × V.AppV)
    (n q : String) (hq : q ≠ n) :
    (V.mpCollV m st n).2.views.get q = st.2.views.get q := by
  unfold V.mpCollV
  exact foldl_mpStepV_views_other _ _ _ _ _ hq

theorem foldl_mpCollV_router (m : Bool) (P : List String)
    (st : JMap Val × V.AppV) :
    ((P.foldl (V.mpCollV m) st).2.router) = st.2.router := by
  induction P generalizing st with
  | nil => rfl
  | cons n P ih =>
    rw [List.foldl_cons, ih, mpCollV_router]

theorem outer_keepV (m : Bool) (P : List String) (st : JMap Val × V.AppV)
    (q : String) (hq : q ∉ P) :
    (P.foldl (V.mpCollV m) st).2.views.get q = st.2.views.get q := by
  induction P generalizing st with
  | nil => rfl
  | cons n P ih =>
    simp only [List.mem_cons, not_or] at hq
    rw [List.foldl_cons, ih _ hq.2, mpCollV_views_other _ _ _ _ hq.1]

/-- The unwritten-namespace-slot property survives a non-colliding step. -/
theorem mpPreV_step (m : Bool) (plural key n : String)
    (st : JMap Val × V.AppV) (kv : String × V.ViewV)
    (h2 : nsOf m n = nsOf m plural → kv.1 ≠ key)
    (hP : mpPreV m plural key st) :
    mpPreV m plural key (V.mpStepV m n st kv) := by
  unfold mpPreV at hP ⊢
  rw [V.mpStepV_fst]
  split
  · exact hP
  · unfold T.setNested
    rw [JMap.get_set]
    by_cases hn : nsOf m plural = nsOf m n
    · rw [if_pos hn]
      have hk : kv.1 ≠ key := h2 hn.symm
      simp only [getObjD]
      rw [JMap.get_set, if_neg (fun h => hk h.symm), ← hn]
      exact hP
    · rw [if_neg hn]
      exact hP

theorem mpPreV_foldl (m : Bool) (plural key n : String)
    (L : List (String × V.ViewV)) (st : JMap Val × V.AppV)
    (hL : ∀ kv ∈ L, nsOf m n = nsOf m plural → kv.1 ≠ key)
    (hP : mpPreV m plural key st) :
    mpPreV m plural key (L.foldl (V.mpStepV m n) st) := by
  induction L generalizing st with
  | nil => exact hP
  | cons kv L ih =>
    rw [List.foldl_cons]
    exact ih _ (fun c hc => hL c (by simp [hc]))
      (mpPreV_step m plural key n st kv (hL kv (by simp)) hP)

theorem outer_preV (m : Bool) (plural key : String)
    (origV : String → JMap V.ViewV) :
    ∀ (P : List String) (st : JMap Val × V.AppV),
      plural ∉ P → P.Nodup →
      (∀ name ∈ P, ((st.2.views.get name).getD [] : JMap V.ViewV) =
        origV name) →
      (∀ name ∈ P, ∀ kv ∈ origV name,
        nsOf m name = nsOf m plural → kv.1 ≠ key) →
      mpPreV m plural key st →
      mpPreV m plural key (P.foldl (V.mpCollV m) st) := by
  intro P
  induction P with
  | nil => exact fun st _ _ _ _ hP => hP
  | cons n P ih =>
    intro st hnp hnd horig hkeys hP
    simp only [List.mem_cons, not_or] at hnp
    simp only [List.nodup_cons] at hnd
    rw [List.foldl_cons]
    refine ih _ hnp.2 hnd.2 ?_ ?_ ?_
    · intro q hq
      rw [← horig q (by simp [hq])]
      unfold V.mpCollV
      rw [foldl_mpStepV_views_other]
      intro hqn
      exact hnd.1 (hqn ▸ hq)
    · intro q hq kv hkv
      exact hkeys q (by simp [hq]) kv hkv
    · unfold V.mpCollV
      apply mpPreV_foldl
      · intro kv hkv
        rw [horig n (by simp)] at hkv
        exact hkeys n (by simp) kv hkv
      · exact hP

/-- The processed-partial invariant survives a non-colliding step. -/
theorem mpInvV_step (m : Bool) (plural key : String) (v' : V.ViewV)
    (n : String) (st : JMap Val × V.AppV) (kv : String × V.ViewV)
    (h1 : n = plural → kv.1 ≠ key)
    (h2 : nsOf m n = nsOf m plural → kv.1 ≠ key)
    (hI : mpInvV m plural key v' st) :
    mpInvV m plural key v' (V.mpStepV m n st kv) := by
  obtain ⟨hs, he⟩ := hI
  constructor
  · rw [V.mpStepV_views, JMap.get_set]
    by_cases hp : plural = n
    · rw [if_pos hp]
      have hk : kv.1 ≠ key := h1 hp.symm
      subst hp
      simp only [Option.getD_some]
      rw [JMap.get_set, if_neg (fun h => hk h.symm)]
      exact hs
    · rw [if_neg hp]
      exact hs
  · rw [V.mpStepV_fst]
    split
    · exact he
    · unfold T.setNested
      rw [JMap.get_set]
      by_cases hn : nsOf m plural = nsOf m n
      · rw [if_pos hn]
        have hk : kv.1 ≠ key := h2 hn.symm
        simp only [getObjD]
        rw [JMap.get_set, if_neg (fun h => hk h.symm), ← hn]
        exact he
      · rw [if_neg hn]
        exact he

theorem mpInvV_foldl (m : Bool) (plural key : String) (v' : V.ViewV)
    (n : String) (L : List (String × V.ViewV)) (st : JMap Val × V.AppV)
    (hL : ∀ kv ∈ L, (n = plural → kv.1 ≠ key) ∧
      (nsOf m n = nsOf m plural → kv.1 ≠ key))
    (hI : mpInvV m plural key v' st) :
    mpInvV m plural key v' (L.foldl (V.mpStepV m n) st) := by
  induction L generalizing st with
  | nil => exact hI
  | cons kv L ih =>
    rw [List.foldl_cons]
    exact ih _ (fun c hc => hL c (by simp [hc]))
      (mpInvV_step m plural key v' n st kv
        (hL kv (by simp)).1 (hL kv (by simp)).2 hI)

/-- Processing a partial establishes the invariant, the stored view being
the `onMerge`-handled one. -/
theorem mpInvV_establish (m : Bool) (plural key : String) (v : V.ViewV)
    (st : JMap Val × V.AppV) (hpre : mpPreV m plural key st) :
    mpInvV m plural key (V.handleV st.2 "onMerge" v)
      (V.mpStepV m plural st (key, v)) := by
  constructor
  · rw [V.mpStepV_views, JMap.get_set, if_pos rfl]
    simp only [Option.getD_some]
    rw [JMap.get_set, if_pos rfl]
  · rw [V.mpStepV_fst]
    by_cases hn : optTruthy
        ((V.handleV st.2 "onMerge" v).options.get "nomerge") = true
    · rw [if_pos hn, if_pos hn]
      exact hpre
    · rw [if_neg hn, if_neg hn]
      unfold T.setNested
      rw [JMap.get_set, if_pos rfl]
      simp only [getObjD]
      rw [JMap.get_set, if_pos rfl]

theorem outer_invV (m : Bool) (plural key : String) (v' : V.ViewV)
    (origV : String → JMap V.ViewV) :
    ∀ (P : List String) (st : JMap Val × V.AppV),
      plural ∉ P → P.Nodup →
      (∀ name ∈ P, ((st.2.views.get name).getD [] : JMap V.ViewV) =
        origV name) →
      (∀ name ∈ P, ∀ kv ∈ origV name,
        nsOf m name = nsOf m plural → kv.1 ≠ key) →
      mpInvV m plural key v' st →
      mpInvV m plural key v' (P.foldl (V.mpCollV m) st) := by
  intro P
  induction P with
  | nil => exact fun st _ _ _ _ hI => hI
  | cons n P ih =>
    intro st hnp hnd horig hkeys hI
    simp only [List.mem_cons, not_or] at hnp
    simp only [List.nodup_cons] at hnd
    rw [List.foldl_cons]
    refine ih _ hnp.2 hnd.2 ?_ ?_ ?_
    · intro q hq
      rw [← horig q (by simp [hq])]
      unfold V.mpCollV
      rw [foldl_mpStepV_views_other]
      intro hqn
      exact hnd.1 (hqn ▸ hq)
    · intro q hq kv hkv
      exact hkeys q (by simp [hq]) kv hkv
    · unfold V.mpCollV
      apply mpInvV_foldl
      · intro kv hkv
        rw [horig n (by simp)] at hkv
        exact ⟨fun h => absurd h.symm hnp.1, hkeys n (by simp) kv hkv⟩
      · exact hI

/-- C6: the rewrite's `mergePartials` invokes the `onMerge` middleware for
EVERY partial (the stored view is exactly the `onMerge`-handled one, so
handler side effects are observable), and omits from its output exactly
the keys of the views the middleware flagged `nomerge`.  (The hypotheses
say the collections are well-formed JS objects and the key is owned by
exactly one partial collection.) -/
theorem claim_C6 (app : V.AppV) (locals : JMap Val) (plural key : String)
    (v : V.ViewV)
    (hnd : app.typesPartials.Nodup)
    (hmem : plural ∈ app.typesPartials)
    (hwfc : JMap.WF ((app.views.get plural).getD [] : JMap V.ViewV))
    (hv : ((app.views.get plural).getD [] : JMap V.ViewV).get key = some v)
    (hothers : ∀ p ∈ app.typesPartials, p ≠ plural →
      ((app.views.get p).getD [] : JMap V.ViewV).get key = none) :
    (((V.mergePartialsV app locals none).2.views.get plural).getD [] :
      JMap V.ViewV).get key = some (V.handleV app "onMerge" v) ∧
    (getObjD ((V.mergePartialsV app locals none).1.get
      (nsOf (V.mergeFlagOf app locals) plural))).get key =
      (if optTruthy ((V.handleV app "onMerge" v).options.get "nomerge")
       then none
       else some (.str (V.handleV app "onMerge" v).content)) := by
  obtain ⟨P1, P2, hsplit⟩ := List.append_of_mem hmem
  have hnd' : (P1 ++ plural :: P2).Nodup := hsplit ▸ hnd
  have hdisj := List.disjoint_of_nodup_append hnd'
  have hP1 : plural ∉ P1 := fun hc => hdisj hc (by simp)
  have hP1nd : P1.Nodup := hnd'.of_append_left
  have hP2nd : P2.Nodup := (hnd'.of_append_right).of_cons
  have hP2 : plural ∉ P2 := by
    have := hnd'.of_append_right
    simp only [List.nodup_cons] at this
    exact this.1
  have hP2P1 : ∀ m ∈ P2, m ∉ P1 := fun m hm hc => hdisj hc (by simp [hm])
  have hP2ne : ∀ m ∈ P2, m ≠ plural := fun m hm hc => hP2 (hc ▸ hm)
  have hP1ne : ∀ m ∈ P1, m ≠ plural := fun m hm hc => hP1 (hc ▸ hm)
  set mg := V.mergeFlagOf app locals with hmgd
  have hkeysOf : ∀ q ∈ app.typesPartials, q ≠ plural →
      ∀ kv ∈ ((app.views.get q).getD [] : JMap V.ViewV),
      nsOf mg q = nsOf mg plural → kv.1 ≠ key := by
    intro q hq hqne kv hkv hns hc
    exact JMap.not_mem_of_get_none _ _ (hothers q hq hqne)
      (hc ▸ List.mem_map_of_mem Prod.fst hkv)
  set st0 : JMap Val × V.AppV := ([], app) with hst0
  have hmp : V.mergePartialsV app locals none =
      app.typesPartials.foldl (V.mpCollV mg) st0 := rfl
  set stA := P1.foldl (V.mpCollV mg) st0 with hstA
  have hkeepA : ∀ q, q ∉ P1 → stA.2.views.get q = app.views.get q := by
    intro q hq
    rw [hstA, outer_keepV _ _ _ _ hq]
  have hrA : stA.2.router = app.router := by
    rw [hstA, foldl_mpCollV_router]
  have hpreA : mpPreV mg plural key stA := by
    rw [hstA]
    apply outer_preV mg plural key
      (fun name => ((app.views.get name).getD [] : JMap V.ViewV)) P1 st0
      hP1 hP1nd (fun name hn => rfl)
    · intro name hn kv hkv hns
      exact hkeysOf name (by rw [hsplit]; simp [hn]) (hP1ne name hn) kv hkv hns
    · show (getObjD (JMap.get [] (nsOf mg plural))).get key = none
      rfl
  obtain ⟨C1, C2, hC, hk1, hk2⟩ := JMap.get_some_split _ key v hwfc hv
  set stM := C1.foldl (V.mpStepV mg plural) stA with hstM
  have hrM : stM.2.router = app.router := by
    rw [hstM, foldl_mpStepV_router, hrA]
  have hpreM : mpPreV mg plural key stM := by
    rw [hstM]
    apply mpPreV_foldl
    · intro kv hkv _ hc
      exact hk1 (hc ▸ List.mem_map_of_mem Prod.fst hkv)
    · exact hpreA
  have hhv : V.handleV stM.2 "onMerge" v = V.handleV app "onMerge" v :=
    V.handleV_congr _ _ _ _ hrM
  set v' := V.handleV app "onMerge" v with hv'
  have hEst : mpInvV mg plural key v' (V.mpStepV mg plural stM (key, v)) := by
    have h0 := mpInvV_establish mg plural key v stM hpreM
    rw [hhv] at h0
    exact h0
  have hB : mpInvV mg plural key v' (V.mpCollV mg stA plural) := by
    unfold V.mpCollV
    rw [hkeepA plural hP1, hC, List.foldl_append, List.foldl_cons]
    apply mpInvV_foldl
    · intro kv hkv
      have : kv.1 ≠ key := fun hc =>
        hk2 (hc ▸ List.mem_map_of_mem Prod.fst hkv)
      exact ⟨fun _ => this, fun _ => this⟩
    · exact hEst
  set stB := V.mpCollV mg stA plural with hstB
  have hF : mpInvV mg plural key v' (P2.foldl (V.mpCollV mg) stB) := by
    apply outer_invV mg plural key v'
      (fun name => ((app.views.get name).getD [] : JMap V.ViewV)) P2 stB
      hP2 hP2nd
    · intro m hm
      rw [hstB, mpCollV_views_other _ _ _ _ (hP2ne m hm), hstA,
        outer_keepV _ _ _ _ (hP2P1 m hm)]
    · intro m hm kv hkv
      exact hkeysOf m (by rw [hsplit]; simp [hm]) (hP2ne m hm) kv hkv
    · exact hB
  have hfold : app.typesPartials.foldl (V.mpCollV mg) st0 =
      P2.foldl (V.mpCollV mg) stB := by
    rw [hsplit, List.foldl_append, List.foldl_cons]
  rw [hmp, hfold]
  exact hF

/-- Witness for C6: an `onMerge` middleware flags the partial at path `b`
with `nomerge`; the output omits `b` (and keeps `a`) while the stored view
of `b` was still handled (its `handled` list records `onMerge`). -/
theorem claim_C6_witness :
    (getObjD ((V.mergePartialsV appC6 [] none).1.get "foos")).get "b" =
      none ∧
    (((V.mergePartialsV appC6 [] none).2.views.get "foos").getD [] :
      JMap V.ViewV).get "b" =
      some (V.handleV appC6 "onMerge"
        { path := "b", content := "bbb" : V.ViewV }) ∧
    "onMerge" ∈ (V.handleV appC6 "onMerge"
      { path := "b", content := "bbb" : V.ViewV }).handled := by
  have h := claim_C6 appC6 [] "foos" "b"
    { path := "b", content := "bbb" : V.ViewV }
    (by decide) (by simp [appC6]) (by decide) rfl
    (by intro p hp hne; simp [appC6] at hp; exact absurd hp hne)
  refine ⟨?_, h.1, by decide⟩
  have hb := h.2
  rw [if_pos (by decide :
    optTruthy ((V.handleV appC6 "onMerge"
      { path := "b", content := "bbb" : V.ViewV }).options.get "nomerge") =
        true)] at hb
  exact hb
